import Mathlib

/-!
Verification of the segmentation stitcher's reconciliation core.

The development shallowly embeds the `Stitcher` class of
`src/segmentationstitcher/stitcher.py`: the annotation catalog built in
`Stitcher.__init__`, the connection lifecycle (`create_connection`), and the
versioned settings codec (`encode_settings` / `decode_settings`).

Python object references to segments are modelled as indices into the
stitcher's segment list.  Mutable state is passed explicitly: operations take
and return a `Stitcher` value.  A Python `print` diagnostic is modelled as a
`Diag` value collected in a list, and a raised exception as an `Option
DecodeErr` component of the result (the state component then holds the
mutations performed before the raise).

The `Annotation`, `Segment` and `Connection` leaf classes live in repository
modules that are not part of the sources here; their fields and their
`encode_settings` / `decode_settings` behaviour are modelled from the spec
(see the individual doc comments), while all the orchestration logic is
translated directly from `stitcher.py`.
-/

/-- The closed category enum of the spec (section 3). -/
inductive Category where
  | CONNECTED_SIMPLE_NETWORK
  | CONNECTED_COMPLEX_NETWORK
  | UNCONNECTED_GENERAL
  | EXCLUDE
deriving DecidableEq

/-- Modelled from the spec: an Annotation is a named, ontology-tagged
classification `{name, term, category, dimension}`; identity is the pair
`(name, term)`. -/
structure Annot where
  name : String
  term : String
  category : Category
  dimension : Nat
deriving DecidableEq

/-- The identity key of an annotation: the `(name, term)` pair. -/
def pairOf (a : Annot) : String × String := (a.name, a.term)

/-- Modelled from the spec: a Segment owns a name (its source file's stem) and
a translation 3-vector defaulting to zero; the raw geometry handle is opaque
to the reconciliation core and omitted. -/
structure Segment where
  name : String
  translation : List ℚ
deriving DecidableEq

/-- Modelled from the spec: a Connection stores the segment references it was
constructed with (here indices into the owning stitcher's segment list) plus
opaque connection-specific settings. -/
structure Connection where
  segments : List Nat
  extra : List String
deriving DecidableEq

/-- The Stitcher state: annotation catalog, segments (input file order),
connections (creation order) and the settings-format version. -/
structure Stitcher where
  annots : List Annot
  segments : List Segment
  connections : List Connection
  version : Nat
deriving DecidableEq

/-- One input file as the catalog construction sees it: the file stem and the
ordered annotations discovered in that segment by the external
annotation-discovery collaborator. -/
structure SegmentInput where
  name : String
  annots : List Annot
deriving DecidableEq

/-- `list.insert(n, x)` of Python: insert `x` before position `n`, clamping to
the end when `n` exceeds the length. -/
def insertAt {α : Type} (n : Nat) (x : α) : List α → List α
  | [] => [x]
  | y :: ys =>
    match n with
    | 0 => x :: y :: ys
    | n + 1 => y :: insertAt n x ys

/-- The catalog scan of `Stitcher.__init__` (stitcher.py lines 52-62): walk
the catalog; stop with `none` when an entry matches `(name, term)` (the
`break`: the annotation exists already), otherwise return the insertion
index, which counts the entries whose name is strictly less than the new
name (`if name > annotation.get_name(): index += 1`). -/
def annotScan (name term : String) : List Annot → Option Nat
  | [] => some 0
  | a :: rest =>
    if a.name = name ∧ a.term = term then none
    else
      match annotScan name term rest with
      | none => none
      | some i => some (if a.name < name then i + 1 else i)

/-- One step of catalog construction: skip a duplicate `(name, term)`,
otherwise insert at the scanned index (stitcher.py lines 49-62). -/
def addAnnot (catalog : List Annot) (a : Annot) : List Annot :=
  match annotScan a.name a.term catalog with
  | none => catalog
  | some i => insertAt i a catalog

/-- The discovery stream: every segment's raw annotations in segment order,
as `Stitcher.__init__` scans them. -/
def discoveryStream (inputs : List SegmentInput) : List Annot :=
  inputs.flatMap SegmentInput.annots

/-- Catalog construction over all inputs (the nested loops of
`Stitcher.__init__`). -/
def buildCatalog (inputs : List SegmentInput) : List Annot :=
  inputs.foldl (fun cat seg => seg.annots.foldl addAnnot cat) []

/-- `Stitcher.__init__`: one Segment per input file (default zero
translation, modelled from the spec), the deduplicated name-ordered catalog,
no connections, version 1. -/
def Stitcher.init (inputs : List SegmentInput) : Stitcher :=
  { annots := buildCatalog inputs
    segments := inputs.map (fun i => { name := i.name, translation := [0, 0, 0] })
    connections := []
    version := 1 }

/-- A saved annotation record of the settings mapping. -/
structure AnnotSettings where
  name : String
  term : String
  category : Category
deriving DecidableEq

/-- A saved segment record of the settings mapping. -/
structure SegSettings where
  name : String
  translation : List ℚ
deriving DecidableEq

/-- A saved connection record of the settings mapping: the connected
segments' names plus the connection-specific settings. -/
structure ConnSettings where
  segments : List String
  extra : List String
deriving DecidableEq

/-- The settings mapping.  Each top-level key of the Python dict is an
`Option` field: `none` models an absent key (`dict.get` returning `None`). -/
structure Settings where
  annotations : Option (List AnnotSettings)
  segments : Option (List SegSettings)
  version : Option Nat
  connections : Option (List ConnSettings)
deriving DecidableEq

/-- The diagnostics printed by the stitcher, as values. -/
inductive Diag where
  | annotNotFound (name term : String)
  | annotUsingDefaults (name term : String)
  | segNotFound (name : String)
  | segUsingDefaults (name : String)
  | connSegNotFound (name : String)
  | onlyTwoSegments
  | alreadyConnected
deriving DecidableEq

/-- The exceptions `decode_settings` can raise: a failed `assert`
(precondition violation), a missing-key lookup (`KeyError`), and calling a
method on `None` (`AttributeError`). -/
inductive DecodeErr where
  | assertError
  | keyError
  | attrError
deriving DecidableEq

/-- Modelled from the spec: `Annotation.encode_settings` emits the name, term
and category. -/
def Annot.encode_settings (a : Annot) : AnnotSettings :=
  ⟨a.name, a.term, a.category⟩

/-- Modelled from the spec: `Annotation.decode_settings` applies the saved
fields (at minimum the category) to the live annotation. -/
def Annot.decode_settings (a : Annot) (r : AnnotSettings) : Annot :=
  { a with category := r.category }

/-- Modelled from the spec: `Segment.encode_settings` emits the name and
translation. -/
def Segment.encode_settings (sg : Segment) : SegSettings :=
  ⟨sg.name, sg.translation⟩

/-- Modelled from the spec: `Segment.decode_settings` applies the saved
per-segment fields (the translation). -/
def Segment.decode_settings (sg : Segment) (r : SegSettings) : Segment :=
  { sg with translation := r.translation }

/-- Modelled from the spec: `Connection.encode_settings` emits its segments'
names plus its settings.  Segment references are modelled as indices, so
encoding takes the owning stitcher's segment list to recover the names. -/
def Connection.encode_settings (segs : List Segment) (c : Connection) : ConnSettings :=
  ⟨c.segments.map (fun i => ((segs[i]?).map Segment.name).getD ""), c.extra⟩

/-- Modelled from the spec: `Connection.decode_settings` applies the saved
connection-specific fields. -/
def Connection.decode_settings (c : Connection) (r : ConnSettings) : Connection :=
  { c with extra := r.extra }

/-- `Stitcher.encode_settings` (stitcher.py lines 144-154): encode every
annotation, connection and segment in order, plus the version. -/
def Stitcher.encode_settings (st : Stitcher) : Settings :=
  { annotations := some (st.annots.map Annot.encode_settings)
    segments := some (st.segments.map Segment.encode_settings)
    version := some st.version
    connections := some (st.connections.map (Connection.encode_settings st.segments)) }

/-- `Stitcher.create_connection` (stitcher.py lines 170-184): reject with a
diagnostic and no state change when the count is not 2 or when some existing
connection contains every given segment; otherwise append a new connection
and return it. -/
def Stitcher.create_connection (st : Stitcher) (segs : List Nat) :
    Option Connection × Stitcher × List Diag :=
  if segs.length ≠ 2 then (none, st, [Diag.onlyTwoSegments])
  else if st.connections.any (fun c => segs.all (fun s => c.segments.contains s)) then
    (none, st, [Diag.alreadyConnected])
  else
    let c : Connection := ⟨segs, []⟩
    (some c, { st with connections := st.connections ++ [c] }, [])

/-- Truthiness of a `dict.get` on a list-valued key: present and non-empty. -/
def truthyList {α : Type} : Option (List α) → Bool
  | some (_ :: _) => true
  | _ => false

/-- Truthiness of a `dict.get` on the integer `version` key: present and
non-zero. -/
def truthyVersion : Option Nat → Bool
  | some (_ + 1) => true
  | _ => false

/-- The structural precondition of `decode_settings` line 74:
`settings_in.get("annotations") and settings_in.get("segments") and
settings_in.get("version")` is truthy. -/
def structOK (s : Settings) : Bool :=
  truthyList s.annotations && truthyList s.segments && truthyVersion s.version

/-- The inner loop of the annotation merge (stitcher.py lines 83-87): find
the first live annotation matching the record's `(name, term)` and apply the
record to it; `none` when no live annotation matches (the loop's `else`). -/
def updateFirstAnnot : List Annot → AnnotSettings → Option (List Annot)
  | [], _ => none
  | a :: rest, r =>
    if a.name = r.name ∧ a.term = r.term then some (a.decode_settings r :: rest)
    else
      match updateFirstAnnot rest r with
      | some rest2 => some (a :: rest2)
      | none => none

/-- First pass of the annotation merge (stitcher.py lines 79-90): apply each
saved record to the first matching live annotation, counting matches, and
emit a not-found diagnostic for each unmatched record. -/
def mergeAnnots (anns : List Annot) : List AnnotSettings → List Annot × Nat × List Diag
  | [] => (anns, 0, [])
  | r :: rest =>
    match updateFirstAnnot anns r with
    | some anns1 =>
      let m := mergeAnnots anns1 rest
      (m.1, m.2.1 + 1, m.2.2)
    | none =>
      let m := mergeAnnots anns rest
      (m.1, m.2.1, Diag.annotNotFound r.name r.term :: m.2.2)

/-- Second pass of the annotation merge (stitcher.py lines 92-100): a
using-defaults diagnostic for each live annotation with no saved record. -/
def annotDefaultDiags (anns : List Annot) (recs : List AnnotSettings) : List Diag :=
  anns.filterMap fun a =>
    if recs.any (fun r => r.name = a.name ∧ r.term = a.term) then none
    else some (Diag.annotUsingDefaults a.name a.term)

/-- The full annotation phase of `decode_settings` (stitcher.py lines
79-100): first pass, then the second pass guarded by
`processed_count != len(self._annotations)`. -/
def annotPhase (anns : List Annot) (recs : List AnnotSettings) : List Annot × List Diag :=
  let m := mergeAnnots anns recs
  (m.1, m.2.2 ++ (if m.2.1 ≠ anns.length then annotDefaultDiags m.1 recs else []))

/-- The inner loop of the segment merge (stitcher.py lines 106-110): find the
first live segment matching the record's name and apply the record to it. -/
def updateFirstSeg : List Segment → SegSettings → Option (List Segment)
  | [], _ => none
  | sg :: rest, r =>
    if sg.name = r.name then some (sg.decode_settings r :: rest)
    else
      match updateFirstSeg rest r with
      | some rest2 => some (sg :: rest2)
      | none => none

/-- First pass of the segment merge (stitcher.py lines 103-113). -/
def mergeSegs (segs : List Segment) : List SegSettings → List Segment × Nat × List Diag
  | [] => (segs, 0, [])
  | r :: rest =>
    match updateFirstSeg segs r with
    | some segs1 =>
      let m := mergeSegs segs1 rest
      (m.1, m.2.1 + 1, m.2.2)
    | none =>
      let m := mergeSegs segs rest
      (m.1, m.2.1, Diag.segNotFound r.name :: m.2.2)

/-- Second pass of the segment merge (stitcher.py lines 114-122). -/
def segDefaultDiags (segs : List Segment) (recs : List SegSettings) : List Diag :=
  segs.filterMap fun sg =>
    if recs.any (fun r => r.name = sg.name) then none
    else some (Diag.segUsingDefaults sg.name)

/-- The full segment phase of `decode_settings` (stitcher.py lines 102-122). -/
def segPhase (segs : List Segment) (recs : List SegSettings) : List Segment × List Diag :=
  let m := mergeSegs segs recs
  (m.1, m.2.2 ++ (if m.2.1 ≠ segs.length then segDefaultDiags m.1 recs else []))

/-- Resolution of a saved connection record's segment-name list against the
live segments (stitcher.py lines 130-138): first match by name wins; a name
with no live segment is dropped with a diagnostic. -/
def resolveSegNames (segs : List Segment) : List String → List Nat × List Diag
  | [] => ([], [])
  | n :: rest =>
    let r := resolveSegNames segs rest
    match segs.findIdx? (fun sg => sg.name = n) with
    | some i => (i :: r.1, r.2)
    | none => (r.1, Diag.connSegNotFound n :: r.2)

/-- The connection-creation loop of `decode_settings` (stitcher.py lines
129-141): resolve each record's names; when at least 2 segments resolve, call
`create_connection` and apply the record's fields to the result — calling
`decode_settings` on the `None` returned by a failed `create_connection`
raises an `AttributeError`; otherwise skip the record. -/
def decodeConns (st : Stitcher) : List ConnSettings → Stitcher × List Diag × Option DecodeErr
  | [] => (st, [], none)
  | r :: rest =>
    let res := resolveSegNames st.segments r.segments
    if 2 ≤ res.1.length then
      let cr := st.create_connection res.1
      match cr.1 with
      | some c =>
        let st2 : Stitcher :=
          { cr.2.1 with connections := cr.2.1.connections.dropLast ++ [c.decode_settings r] }
        let k := decodeConns st2 rest
        (k.1, res.2 ++ cr.2.2 ++ k.2.1, k.2.2)
      | none => (cr.2.1, res.2 ++ cr.2.2, some DecodeErr.attrError)
    else
      let k := decodeConns st rest
      (k.1, res.2 ++ k.2.1, k.2.2)

/-- `Stitcher.decode_settings` (stitcher.py lines 69-141): assert the
structural precondition, merge annotations then segments (two passes each),
assert that no connections exist, look up the `connections` key (a missing
key raises `KeyError`), then create the saved connections.  The returned
state carries the mutations performed before any raise. -/
def Stitcher.decode_settings (st : Stitcher) (s : Settings) :
    Stitcher × List Diag × Option DecodeErr :=
  if structOK s = false then (st, [], some DecodeErr.assertError)
  else
    let aRes := annotPhase st.annots (s.annotations.getD [])
    let sRes := segPhase st.segments (s.segments.getD [])
    let st1 : Stitcher := { st with annots := aRes.1, segments := sRes.1 }
    let d0 := aRes.2 ++ sRes.2
    if st1.connections ≠ [] then (st1, d0, some DecodeErr.assertError)
    else
      match s.connections with
      | none => (st1, d0, some DecodeErr.keyError)
      | some cRecs =>
        let k := decodeConns st1 cRecs
        (k.1, d0 ++ k.2.1, k.2.2)

/-! ## Shared example fixtures -/

/-- Two input files: `alpha` carrying one discovered annotation, `beta` none. -/
def exInput : List SegmentInput :=
  [⟨"alpha", [⟨"nerve", "t1", Category.UNCONNECTED_GENERAL, 1⟩]⟩, ⟨"beta", []⟩]

/-- A stitcher freshly constructed over `exInput`. -/
def exFresh : Stitcher := Stitcher.init exInput

/-- `exFresh` after a user created the connection between its two segments. -/
def exWithConn : Stitcher := { exFresh with connections := [⟨[0, 1], []⟩] }

/-- A structurally valid settings mapping for `exInput` that edits the
annotation's category and the first segment's translation, with no
connections key. -/
def exSettingsNoConns : Settings :=
  { annotations := some [⟨"nerve", "t1", Category.EXCLUDE⟩]
    segments := some [⟨"alpha", [1, 2, 3]⟩]
    version := some 1
    connections := none }

/-- `exSettingsNoConns` with an empty connections list supplied. -/
def exSettingsFull : Settings := { exSettingsNoConns with connections := some [] }

/-! ## Helper lemmas -/

/-- The connection loop of `decode_settings` never raises the precondition
`assert`: its only error is the `AttributeError` from a failed
`create_connection`. -/
theorem decodeConns_ne_assert (st : Stitcher) (l : List ConnSettings) :
    (decodeConns st l).2.2 ≠ some DecodeErr.assertError := by
  induction l generalizing st with
  | nil => simp [decodeConns]
  | cons r rest ih =>
    unfold decodeConns
    dsimp only
    split
    · cases hcr : (st.create_connection (resolveSegNames st.segments r.segments).1).1 with
      | some c => simpa using ih _
      | none => simp
    · simpa using ih st

/-- `create_connection` on success: the returned connection holds exactly the
given segments with empty settings, and the state gains it at the end. -/
theorem create_connection_success (st : Stitcher) (segs : List Nat)
    (hlen : segs.length = 2)
    (hfresh : ∀ c ∈ st.connections, ∃ i ∈ segs, i ∉ c.segments) :
    st.create_connection segs =
      (some ⟨segs, []⟩, { st with connections := st.connections ++ [⟨segs, []⟩] }, []) := by
  have hcond : ¬ ∃ c ∈ st.connections, ∀ i ∈ segs, i ∈ c.segments := by
    rintro ⟨c, hc, hall⟩
    obtain ⟨i, hi, hni⟩ := hfresh c hc
    exact hni (hall i hi)
  unfold Stitcher.create_connection
  simp [hlen, hcond]

/-- `create_connection` rejection: wrong count or an existing connection
containing every given segment leaves the state unchanged. -/
theorem create_connection_reject (st : Stitcher) (segs : List Nat)
    (h : segs.length ≠ 2 ∨ ∃ c ∈ st.connections, ∀ i ∈ segs, i ∈ c.segments) :
    (st.create_connection segs).1 = none ∧ (st.create_connection segs).2.1 = st := by
  unfold Stitcher.create_connection
  rcases h with h | h
  · simp [h]
  · by_cases hlen : segs.length = 2
    · have hcond : ∃ c ∈ st.connections, ∀ i ∈ segs, i ∈ c.segments := h
      simp [hlen, hcond]
    · simp [hlen]

/-! ## C5 — self-connections -/

/-- C5: "every connection in the connection list links exactly two distinct
segments (no self-connections) and at most one connection exists per
unordered pair."  Evaluating the code at the failing input: on a stitcher
with one segment, `create_connection([A, A])` passes the length-2 check, is
not blocked by the duplicate scan, and appends a connection whose two
segment references are both segment `0` — a self-connection the claim says
can never be produced. -/
theorem c5_self_connection_created :
    ((Stitcher.init [⟨"seg1", []⟩]).create_connection [0, 0]).1 = some ⟨[0, 0], []⟩ ∧
    ((Stitcher.init [⟨"seg1", []⟩]).create_connection [0, 0]).2.1.connections =
      [⟨[0, 0], []⟩] := by
  decide

/-! ## C9 — missing `connections` key -/

/-- C9: `decode_settings` requires a top-level `connections` key even though
it is not among the documented required keys: with `annotations`, `segments`
and `version` present and non-empty but `connections` absent, it raises a
lookup error (`KeyError` at `settings_in["connections"]`) after the
annotation and segment settings have already been merged — here the saved
category `EXCLUDE` and the saved translation `[1, 2, 3]` are applied to the
live objects before the error. -/
theorem c9_missing_connections_key :
    structOK exSettingsNoConns = true ∧
    exSettingsNoConns.connections = none ∧
    (exFresh.decode_settings exSettingsNoConns).2.2 = some DecodeErr.keyError ∧
    (exFresh.decode_settings exSettingsNoConns).1.annots.map Annot.category =
      [Category.EXCLUDE] ∧
    (exFresh.decode_settings exSettingsNoConns).1.segments.map Segment.translation =
      [[1, 2, 3], [0, 0, 0]] := by
  decide

/-! ## C10 — decode is not atomic on the connections precondition -/

/-- C10: on every stitcher whose connection list is non-empty, a structurally
valid `decode_settings` call fails the zero-connections precondition only
after the saved annotation and segment settings have been applied: the
returned state carries the merged annotation and segment lists, while the
error is the precondition `assert`. -/
theorem c10_decode_not_atomic (st : Stitcher) (s : Settings)
    (hconn : st.connections ≠ []) (hok : structOK s = true) :
    (st.decode_settings s).2.2 = some DecodeErr.assertError ∧
    (st.decode_settings s).1.annots = (annotPhase st.annots (s.annotations.getD [])).1 ∧
    (st.decode_settings s).1.segments = (segPhase st.segments (s.segments.getD [])).1 ∧
    (st.decode_settings s).1.connections = st.connections := by
  unfold Stitcher.decode_settings
  simp [hok, hconn]

/-- C10 witness: a stitcher with one connection and an annotation still at
its default category; decoding valid settings raises the precondition
failure, yet the returned state holds the saved category and translation
(a real mutation: the annotation list changed). -/
theorem c10_decode_not_atomic_witness :
    ((exWithConn.decode_settings exSettingsFull).2.2 = some DecodeErr.assertError ∧
      (exWithConn.decode_settings exSettingsFull).1.annots =
        (annotPhase exWithConn.annots (exSettingsFull.annotations.getD [])).1 ∧
      (exWithConn.decode_settings exSettingsFull).1.segments =
        (segPhase exWithConn.segments (exSettingsFull.segments.getD [])).1 ∧
      (exWithConn.decode_settings exSettingsFull).1.connections = exWithConn.connections) ∧
    (exWithConn.decode_settings exSettingsFull).1.annots ≠ exWithConn.annots := by
  exact ⟨c10_decode_not_atomic exWithConn exSettingsFull (by decide) (by decide), by decide⟩

/-! ## C6 — which failures are precondition violations -/

/-- C6 counterexample: the claim says a precondition-violating call "raises
to the caller, does not merge".  On a stitcher with a pre-existing connection
and structurally valid settings, the call raises the precondition violation
*and* has merged: the returned annotation state differs from the input
state. -/
theorem c6_counterexample :
    structOK exSettingsFull = true ∧
    (exWithConn.decode_settings exSettingsFull).2.2 = some DecodeErr.assertError ∧
    (exWithConn.decode_settings exSettingsFull).1.annots ≠ exWithConn.annots := by
  decide

/-- C6 amended: `decode_settings` raises a precondition violation (a failed
`assert`) exactly when `annotations`, `segments` or `version` is absent or
empty, or when the stitcher's connection list is non-empty at the
connections stage; when one of the three key preconditions fails nothing is
merged, but the connections precondition fires only after the annotation and
segment merges (a missing `connections` key instead raises a distinct lookup
error, and a failed in-loop `create_connection` a distinct attribute
error). -/
theorem c6_assert_iff (st : Stitcher) (s : Settings) :
    ((st.decode_settings s).2.2 = some DecodeErr.assertError ↔
      structOK s = false ∨ st.connections ≠ []) ∧
    (structOK s = false → st.decode_settings s = (st, [], some DecodeErr.assertError)) := by
  constructor
  · unfold Stitcher.decode_settings
    by_cases hok : structOK s = false
    · simp [hok]
    · rw [Bool.not_eq_false] at hok
      by_cases hconn : st.connections = []
      · cases hc : s.connections with
        | none => simp [hok, hconn, hc]
        | some cRecs =>
          simp only [hok, Bool.true_eq_false, if_false, hconn, ne_eq, not_true_eq_false,
            if_false, hc]
          simpa [hok, hconn] using decodeConns_ne_assert _ cRecs
      · simp [hok, hconn]
  · intro hok
    unfold Stitcher.decode_settings
    simp [hok]

/-- C6 witness: both directions of the amended characterization at concrete
inputs — the missing-`annotations` case raises without merging, and a
connection-laden stitcher raises at the connections stage. -/
theorem c6_assert_iff_witness :
    (exFresh.decode_settings { exSettingsFull with annotations := none } =
      (exFresh, [], some DecodeErr.assertError)) ∧
    ((exWithConn.decode_settings exSettingsFull).2.2 = some DecodeErr.assertError ↔
      structOK exSettingsFull = false ∨ exWithConn.connections ≠ []) := by
  exact ⟨(c6_assert_iff exFresh { exSettingsFull with annotations := none }).2 (by decide),
    (c6_assert_iff exWithConn exSettingsFull).1⟩

/-! ## C4 — create_connection acceptance and rejection -/

/-- C4 counterexample: the claim says `create_connection` returns null only
when the count is not 2 or a connection between the same unordered pair
already exists, and otherwise appends.  On a stitcher whose only connection
is between segments `0` and `1`, calling `create_connection([0, 0])` passes
a list of length 2 and no connection between the unordered pair `(0, 0)`
exists (the only reordering of `[0, 0]` is itself), so the claim requires an
append — yet the code's membership scan (`0 ∈ [0, 1]` twice) rejects the
call and returns null. -/
theorem c4_counterexample :
    ([0, 0] : List Nat).length = 2 ∧
    (∀ c ∈ exWithConn.connections, c.segments ≠ [0, 0]) ∧
    (exWithConn.create_connection [0, 0]).1 = none ∧
    (exWithConn.create_connection [0, 0]).2.1 = exWithConn := by
  decide

/-- C4 amended: `create_connection` returns null and leaves the connection
list unchanged exactly when the count is not 2 or some existing connection's
segment pair contains every given segment (for two *distinct* given segments
this coincides with an existing connection between the same unordered pair);
otherwise it appends a new connection holding the given segments and returns
it.  In particular `create_connection([A,B])` followed by
`create_connection([B,A])` leaves exactly one new connection and the second
call returns null. -/
theorem c4_create_connection (st : Stitcher) (segs : List Nat) :
    ((segs.length ≠ 2 ∨ ∃ c ∈ st.connections, ∀ i ∈ segs, i ∈ c.segments) →
      (st.create_connection segs).1 = none ∧ (st.create_connection segs).2.1 = st) ∧
    ((segs.length = 2 ∧ ∀ c ∈ st.connections, ∃ i ∈ segs, i ∉ c.segments) →
      st.create_connection segs =
        (some ⟨segs, []⟩, { st with connections := st.connections ++ [⟨segs, []⟩] }, [])) ∧
    (∀ a b : Nat, (∀ c ∈ st.connections, a ∉ c.segments ∨ b ∉ c.segments) →
      ((st.create_connection [a, b]).2.1.create_connection [b, a]).1 = none ∧
      ((st.create_connection [a, b]).2.1.create_connection [b, a]).2.1.connections =
        st.connections ++ [⟨[a, b], []⟩]) := by
  refine ⟨fun h => create_connection_reject st segs h, fun h => ?_, fun a b h => ?_⟩
  · exact create_connection_success st segs h.1 h.2
  · have hfst : st.create_connection [a, b] =
        (some ⟨[a, b], []⟩, { st with connections := st.connections ++ [⟨[a, b], []⟩] }, []) := by
      refine create_connection_success st [a, b] rfl ?_
      intro c hc
      rcases h c hc with hna | hnb
      · exact ⟨a, by simp, hna⟩
      · exact ⟨b, by simp, hnb⟩
    rw [hfst]
    have hsnd := create_connection_reject
      { st with connections := st.connections ++ [⟨[a, b], []⟩] } [b, a]
      (Or.inr ⟨⟨[a, b], []⟩, by simp, by simp⟩)
    exact ⟨hsnd.1, by rw [hsnd.2]⟩

/-- C4 witness: all three parts of the amended characterization at concrete
inputs — a rejected triple, a successful append, and the `[0,1]` then
`[1,0]` scenario on the fresh two-segment stitcher. -/
theorem c4_create_connection_witness :
    ((exFresh.create_connection [0, 1, 1]).1 = none ∧
      (exFresh.create_connection [0, 1, 1]).2.1 = exFresh) ∧
    (exFresh.create_connection [0, 1] =
      (some ⟨[0, 1], []⟩, { exFresh with connections := exFresh.connections ++ [⟨[0, 1], []⟩] },
        [])) ∧
    (((exFresh.create_connection [0, 1]).2.1.create_connection [1, 0]).1 = none ∧
      ((exFresh.create_connection [0, 1]).2.1.create_connection [1, 0]).2.1.connections =
        exFresh.connections ++ [⟨[0, 1], []⟩]) := by
  exact ⟨(c4_create_connection exFresh [0, 1, 1]).1 (by decide),
    (c4_create_connection exFresh [0, 1]).2.1 (by decide),
    (c4_create_connection exFresh [0, 1]).2.2 0 1 (by decide)⟩

/-! ## C8 — saved connection records during decode -/

/-- A name with no matching live segment is dropped with a diagnostic by the
connection-record resolution loop. -/
theorem resolveSegNames_not_found (segs : List Segment) (names : List String)
    (n : String) (hn : n ∈ names) (habs : ∀ sg ∈ segs, sg.name ≠ n) :
    Diag.connSegNotFound n ∈ (resolveSegNames segs names).2 := by
  induction names with
  | nil => cases hn
  | cons m rest ih =>
    unfold resolveSegNames
    dsimp only
    rcases List.mem_cons.1 hn with rfl | hmem
    · have hfind : segs.findIdx? (fun sg => sg.name = n) = none := by
        rw [List.findIdx?_eq_none_iff]
        intro sg hsg
        simpa using habs sg hsg
      rw [hfind]
      exact List.mem_cons_self _ _
    · cases segs.findIdx? (fun sg => sg.name = m) with
      | some i => exact ih hmem
      | none => exact List.mem_cons_of_mem _ (ih hmem)

/-- Settings used by the C8 counterexample: structurally valid, and two
saved connection records naming the same two live segments in both orders. -/
def c8Settings : Settings :=
  { annotations := some [⟨"nerve", "t1", Category.UNCONNECTED_GENERAL⟩]
    segments := some [⟨"alpha", [0, 0, 0]⟩, ⟨"beta", [0, 0, 0]⟩]
    version := some 1
    connections := some [⟨["alpha", "beta"], []⟩, ⟨["beta", "alpha"], []⟩] }

/-- C8 counterexample: the claim says that for every saved connection record
the merge continues without raising.  Decoding `c8Settings` into the fresh
two-segment stitcher resolves both records fully (every saved name matches a
live segment), creates the first connection, and then crashes on the second
record: `create_connection` returns `None` for the already-connected pair
and `decode_settings` is called on that `None` (an `AttributeError`). -/
theorem c8_counterexample :
    structOK c8Settings = true ∧
    exFresh.connections = [] ∧
    (∀ r ∈ c8Settings.connections.getD [], ∀ n ∈ r.segments,
      ∃ sg ∈ exFresh.segments, sg.name = n) ∧
    (exFresh.decode_settings c8Settings).2.2 = some DecodeErr.attrError := by
  decide

/-- C8 amended: for each saved connection record, names that do not resolve
against the live segments are dropped with a diagnostic; if fewer than 2
segments resolve the record is skipped and the loop continues without
raising; if exactly 2 resolve and no existing connection contains both, the
connection is created via `create_connection`, the record's saved fields are
applied to it, and the loop continues; but if at least 2 resolve and
`create_connection` returns null (more than 2 resolved, or an existing
connection contains every resolved segment) the loop stops with an
`AttributeError` instead of continuing. -/
theorem c8_decode_connection_records (st : Stitcher) (r : ConnSettings)
    (rest : List ConnSettings) :
    (∀ n ∈ r.segments, (∀ sg ∈ st.segments, sg.name ≠ n) →
      Diag.connSegNotFound n ∈ (resolveSegNames st.segments r.segments).2) ∧
    ((resolveSegNames st.segments r.segments).1.length < 2 →
      decodeConns st (r :: rest) =
        ((decodeConns st rest).1,
          (resolveSegNames st.segments r.segments).2 ++ (decodeConns st rest).2.1,
          (decodeConns st rest).2.2)) ∧
    ((resolveSegNames st.segments r.segments).1.length = 2 →
      (∀ c ∈ st.connections, ∃ i ∈ (resolveSegNames st.segments r.segments).1,
        i ∉ c.segments) →
      decodeConns st (r :: rest) =
        (let st2 : Stitcher := { st with connections :=
          st.connections ++ [⟨(resolveSegNames st.segments r.segments).1, r.extra⟩] }
        ((decodeConns st2 rest).1,
          (resolveSegNames st.segments r.segments).2 ++ (decodeConns st2 rest).2.1,
          (decodeConns st2 rest).2.2))) ∧
    (2 ≤ (resolveSegNames st.segments r.segments).1.length →
      ((resolveSegNames st.segments r.segments).1.length ≠ 2 ∨
        ∃ c ∈ st.connections, ∀ i ∈ (resolveSegNames st.segments r.segments).1,
          i ∈ c.segments) →
      (decodeConns st (r :: rest)).1 = st ∧
      (decodeConns st (r :: rest)).2.2 = some DecodeErr.attrError) := by
  refine ⟨fun n hn habs => resolveSegNames_not_found st.segments r.segments n hn habs,
    fun hlt => ?_, fun hlen hfresh => ?_, fun hge hbad => ?_⟩
  · conv_lhs => unfold decodeConns
    have h2 : ¬ 2 ≤ (resolveSegNames st.segments r.segments).1.length := by omega
    simp [h2]
  · conv_lhs => unfold decodeConns
    dsimp only
    rw [if_pos (by omega : 2 ≤ (resolveSegNames st.segments r.segments).1.length),
      create_connection_success st (resolveSegNames st.segments r.segments).1 hlen hfresh]
    simp [Connection.decode_settings, List.dropLast_concat]
  · have hrej := create_connection_reject st (resolveSegNames st.segments r.segments).1 hbad
    constructor
    · conv_lhs => unfold decodeConns
      dsimp only
      rw [if_pos hge, hrej.1]
      exact hrej.2
    · conv_lhs => unfold decodeConns
      dsimp only
      rw [if_pos hge, hrej.1]

/-- C8 witness: the amended characterization at concrete inputs — an
unresolvable name yields its diagnostic while the record is skipped, a fully
resolved fresh pair is appended with its saved fields, and a second record
for the same pair stops the loop with the attribute error. -/
theorem c8_decode_connection_records_witness :
    (Diag.connSegNotFound "ghost" ∈
      (resolveSegNames exFresh.segments ["ghost", "alpha"]).2) ∧
    (decodeConns exFresh [⟨["alpha", "beta"], ["x"]⟩] =
      (let st2 : Stitcher := { exFresh with connections :=
        exFresh.connections ++ [⟨(resolveSegNames exFresh.segments ["alpha", "beta"]).1,
          ["x"]⟩] }
      ((decodeConns st2 []).1,
        (resolveSegNames exFresh.segments ["alpha", "beta"]).2 ++ (decodeConns st2 []).2.1,
        (decodeConns st2 []).2.2))) ∧
    ((decodeConns exWithConn [⟨["alpha", "beta"], []⟩]).1 = exWithConn ∧
      (decodeConns exWithConn [⟨["alpha", "beta"], []⟩]).2.2 = some DecodeErr.attrError) := by
  exact ⟨(c8_decode_connection_records exFresh ⟨["ghost", "alpha"], []⟩ []).1 "ghost"
      (by decide) (by decide),
    (c8_decode_connection_records exFresh ⟨["alpha", "beta"], ["x"]⟩ []).2.2.1
      (by decide) (by decide),
    (c8_decode_connection_records exWithConn ⟨["alpha", "beta"], []⟩ []).2.2.2
      (by decide) (by decide)⟩

/-! ## C7 — two-pass drift-tolerant merging -/

/-- The first-match update fails exactly when no live annotation matches the
record's `(name, term)`. -/
theorem updateFirstAnnot_eq_none (anns : List Annot) (r : AnnotSettings) :
    updateFirstAnnot anns r = none ↔
      ∀ a ∈ anns, ¬(a.name = r.name ∧ a.term = r.term) := by
  induction anns with
  | nil => simp [updateFirstAnnot]
  | cons a rest ih =>
    simp only [updateFirstAnnot]
    by_cases hm : a.name = r.name ∧ a.term = r.term
    · simp [hm]
    · rw [if_neg hm]
      cases hu : updateFirstAnnot rest r with
      | some rest2 =>
        refine ⟨fun hn => by simp at hn, fun hall => ?_⟩
        have hnone := ih.2 (fun x hx => hall x (List.mem_cons_of_mem _ hx))
        rw [hnone] at hu
        simp at hu
      | none =>
        constructor
        · intro _ x hx
          rcases List.mem_cons.1 hx with rfl | hx2
          · exact hm
          · exact ih.1 hu x hx2
        · intro _
          rfl

/-- The first-match update on success: the length is preserved, every
position keeps its `(name, term)` pair, and every position holding an
annotation that does not match the record is unchanged. -/
theorem updateFirstAnnot_eq_some (anns anns' : List Annot) (r : AnnotSettings)
    (h : updateFirstAnnot anns r = some anns') :
    anns'.length = anns.length ∧
    (∀ i : Nat, (anns'[i]?).map pairOf = (anns[i]?).map pairOf) ∧
    (∀ i : Nat, ∀ a, anns[i]? = some a → ¬(a.name = r.name ∧ a.term = r.term) →
      anns'[i]? = some a) := by
  induction anns generalizing anns' with
  | nil => simp [updateFirstAnnot] at h
  | cons a rest ih =>
    simp only [updateFirstAnnot] at h
    by_cases hm : a.name = r.name ∧ a.term = r.term
    · rw [if_pos hm] at h
      obtain rfl := Option.some.inj h
      refine ⟨by simp, fun i => ?_, fun i a' ha' hnm => ?_⟩
      · cases i with
        | zero => simp [Annot.decode_settings, pairOf]
        | succ n => simp
      · cases i with
        | zero =>
          rw [List.getElem?_cons_zero, Option.some.injEq] at ha'
          exact absurd (ha' ▸ hm) hnm
        | succ n => simpa using ha'
    · rw [if_neg hm] at h
      cases hu : updateFirstAnnot rest r with
      | none => rw [hu] at h; simp at h
      | some rest2 =>
        rw [hu] at h
        obtain rfl := Option.some.inj h
        obtain ⟨hl, hp, hun⟩ := ih rest2 hu
        refine ⟨by simp [hl], fun i => ?_, fun i a' ha' hnm => ?_⟩
        · cases i with
          | zero => simp
          | succ n => simpa using hp n
        · cases i with
          | zero => simpa using ha'
          | succ n =>
            rw [List.getElem?_cons_succ] at ha' ⊢
            exact hun n a' ha' hnm

/-- The first merge pass: length preserved, pairs preserved positionally, and
a live annotation matched by no saved record is left untouched at its
position. -/
theorem mergeAnnots_state (anns : List Annot) (recs : List AnnotSettings) :
    (mergeAnnots anns recs).1.length = anns.length ∧
    (∀ i : Nat, ((mergeAnnots anns recs).1[i]?).map pairOf = (anns[i]?).map pairOf) ∧
    (∀ i : Nat, ∀ a, anns[i]? = some a →
      (∀ r ∈ recs, ¬(a.name = r.name ∧ a.term = r.term)) →
      (mergeAnnots anns recs).1[i]? = some a) := by
  induction recs generalizing anns with
  | nil => exact ⟨rfl, fun _ => rfl, fun _ _ ha _ => ha⟩
  | cons r rest ih =>
    simp only [mergeAnnots]
    cases hu : updateFirstAnnot anns r with
    | some anns1 =>
      dsimp only
      obtain ⟨hl1, hp1, hun1⟩ := updateFirstAnnot_eq_some anns anns1 r hu
      obtain ⟨hl2, hp2, hun2⟩ := ih anns1
      refine ⟨by rw [hl2, hl1], fun i => by rw [hp2 i, hp1 i], ?_⟩
      intro i a ha hall
      exact hun2 i a (hun1 i a ha (hall r (List.mem_cons_self _ _)))
        (fun r' hr' => hall r' (List.mem_cons_of_mem _ hr'))
    | none =>
      dsimp only
      obtain ⟨hl2, hp2, hun2⟩ := ih anns
      exact ⟨hl2, hp2, fun i a ha hall =>
        hun2 i a ha (fun r' hr' => hall r' (List.mem_cons_of_mem _ hr'))⟩

/-- A saved record with no matching live annotation produces its not-found
diagnostic in the first merge pass. -/
theorem mergeAnnots_not_found (anns : List Annot) (recs : List AnnotSettings)
    (r : AnnotSettings) (hr : r ∈ recs)
    (habs : ∀ a ∈ anns, ¬(a.name = r.name ∧ a.term = r.term)) :
    Diag.annotNotFound r.name r.term ∈ (mergeAnnots anns recs).2.2 := by
  induction recs generalizing anns with
  | nil => cases hr
  | cons r0 rest ih =>
    simp only [mergeAnnots]
    rcases List.mem_cons.1 hr with rfl | hmem
    · rw [(updateFirstAnnot_eq_none anns r).2 habs]
      exact List.mem_cons_self _ _
    · cases hu : updateFirstAnnot anns r0 with
      | some anns1 =>
        dsimp only
        refine ih anns1 hmem (fun a1 ha1 => ?_)
        obtain ⟨i, hi⟩ := List.mem_iff_getElem?.1 ha1
        obtain ⟨_, hp, _⟩ := updateFirstAnnot_eq_some anns anns1 r0 hu
        have := hp i
        rw [hi] at this
        cases ha : anns[i]? with
        | none => rw [ha] at this; simp at this
        | some a0 =>
          rw [ha] at this
          have hpair : pairOf a1 = pairOf a0 := by
            simpa using this
          rw [pairOf, pairOf, Prod.mk.injEq] at hpair
          have h0 := habs a0 (List.getElem?_mem ha)
          intro hc
          exact h0 ⟨hpair.1 ▸ hc.1, hpair.2 ▸ hc.2⟩
      | none =>
        dsimp only
        exact List.mem_cons_of_mem _ (ih anns hmem habs)

/-- A live annotation with no matching saved record gets its using-defaults
diagnostic from the second merge pass. -/
theorem annotDefaultDiags_mem (anns : List Annot) (recs : List AnnotSettings)
    (a : Annot) (ha : a ∈ anns)
    (habs : ∀ r ∈ recs, ¬(a.name = r.name ∧ a.term = r.term)) :
    Diag.annotUsingDefaults a.name a.term ∈ annotDefaultDiags anns recs := by
  rw [annotDefaultDiags, List.mem_filterMap]
  refine ⟨a, ha, ?_⟩
  have hany : (recs.any fun r => r.name = a.name ∧ r.term = a.term) = false := by
    simp only [List.any_eq_false]
    intro r hr
    have := habs r hr
    simp only [decide_eq_true_eq]
    tauto
  rw [hany]
  simp

/-- The segment first-match update fails exactly when no live segment has the
record's name. -/
theorem updateFirstSeg_eq_none (segs : List Segment) (r : SegSettings) :
    updateFirstSeg segs r = none ↔ ∀ sg ∈ segs, ¬ sg.name = r.name := by
  induction segs with
  | nil => simp [updateFirstSeg]
  | cons sg rest ih =>
    simp only [updateFirstSeg]
    by_cases hm : sg.name = r.name
    · simp [hm]
    · rw [if_neg hm]
      cases hu : updateFirstSeg rest r with
      | some rest2 =>
        refine ⟨fun hn => by simp at hn, fun hall => ?_⟩
        have hnone := ih.2 (fun x hx => hall x (List.mem_cons_of_mem _ hx))
        rw [hnone] at hu
        simp at hu
      | none =>
        constructor
        · intro _ x hx
          rcases List.mem_cons.1 hx with rfl | hx2
          · exact hm
          · exact ih.1 hu x hx2
        · intro _
          rfl

/-- The segment first-match update on success: length preserved, names
preserved positionally, unmatched positions untouched. -/
theorem updateFirstSeg_eq_some (segs segs' : List Segment) (r : SegSettings)
    (h : updateFirstSeg segs r = some segs') :
    segs'.length = segs.length ∧
    (∀ i : Nat, (segs'[i]?).map Segment.name = (segs[i]?).map Segment.name) ∧
    (∀ i : Nat, ∀ sg, segs[i]? = some sg → ¬ sg.name = r.name → segs'[i]? = some sg) := by
  induction segs generalizing segs' with
  | nil => simp [updateFirstSeg] at h
  | cons sg rest ih =>
    simp only [updateFirstSeg] at h
    by_cases hm : sg.name = r.name
    · rw [if_pos hm] at h
      obtain rfl := Option.some.inj h
      refine ⟨by simp, fun i => ?_, fun i sg' hsg' hnm => ?_⟩
      · cases i with
        | zero => simp [Segment.decode_settings]
        | succ n => simp
      · cases i with
        | zero =>
          rw [List.getElem?_cons_zero, Option.some.injEq] at hsg'
          exact absurd (hsg' ▸ hm) hnm
        | succ n => simpa using hsg'
    · rw [if_neg hm] at h
      cases hu : updateFirstSeg rest r with
      | none => rw [hu] at h; simp at h
      | some rest2 =>
        rw [hu] at h
        obtain rfl := Option.some.inj h
        obtain ⟨hl, hp, hun⟩ := ih rest2 hu
        refine ⟨by simp [hl], fun i => ?_, fun i sg' hsg' hnm => ?_⟩
        · cases i with
          | zero => simp
          | succ n => simpa using hp n
        · cases i with
          | zero => simpa using hsg'
          | succ n =>
            rw [List.getElem?_cons_succ] at hsg' ⊢
            exact hun n sg' hsg' hnm

/-- The first segment merge pass: length preserved, names preserved
positionally, and a live segment matched by no saved record is untouched. -/
theorem mergeSegs_state (segs : List Segment) (recs : List SegSettings) :
    (mergeSegs segs recs).1.length = segs.length ∧
    (∀ i : Nat, ((mergeSegs segs recs).1[i]?).map Segment.name =
      (segs[i]?).map Segment.name) ∧
    (∀ i : Nat, ∀ sg, segs[i]? = some sg →
      (∀ r ∈ recs, ¬ sg.name = r.name) →
      (mergeSegs segs recs).1[i]? = some sg) := by
  induction recs generalizing segs with
  | nil => exact ⟨rfl, fun _ => rfl, fun _ _ hsg _ => hsg⟩
  | cons r rest ih =>
    simp only [mergeSegs]
    cases hu : updateFirstSeg segs r with
    | some segs1 =>
      dsimp only
      obtain ⟨hl1, hp1, hun1⟩ := updateFirstSeg_eq_some segs segs1 r hu
      obtain ⟨hl2, hp2, hun2⟩ := ih segs1
      refine ⟨by rw [hl2, hl1], fun i => by rw [hp2 i, hp1 i], ?_⟩
      intro i sg hsg hall
      exact hun2 i sg (hun1 i sg hsg (hall r (List.mem_cons_self _ _)))
        (fun r' hr' => hall r' (List.mem_cons_of_mem _ hr'))
    | none =>
      dsimp only
      obtain ⟨hl2, hp2, hun2⟩ := ih segs
      exact ⟨hl2, hp2, fun i sg hsg hall =>
        hun2 i sg hsg (fun r' hr' => hall r' (List.mem_cons_of_mem _ hr'))⟩

/-- A saved segment record with no matching live segment produces its
not-found diagnostic in the first merge pass. -/
theorem mergeSegs_not_found (segs : List Segment) (recs : List SegSettings)
    (r : SegSettings) (hr : r ∈ recs)
    (habs : ∀ sg ∈ segs, ¬ sg.name = r.name) :
    Diag.segNotFound r.name ∈ (mergeSegs segs recs).2.2 := by
  induction recs generalizing segs with
  | nil => cases hr
  | cons r0 rest ih =>
    simp only [mergeSegs]
    rcases List.mem_cons.1 hr with rfl | hmem
    · rw [(updateFirstSeg_eq_none segs r).2 habs]
      exact List.mem_cons_self _ _
    · cases hu : updateFirstSeg segs r0 with
      | some segs1 =>
        dsimp only
        refine ih segs1 hmem (fun sg1 hsg1 => ?_)
        obtain ⟨i, hi⟩ := List.mem_iff_getElem?.1 hsg1
        obtain ⟨_, hp, _⟩ := updateFirstSeg_eq_some segs segs1 r0 hu
        have := hp i
        rw [hi] at this
        cases hsg : segs[i]? with
        | none => rw [hsg] at this; simp at this
        | some sg0 =>
          rw [hsg] at this
          have hname : sg1.name = sg0.name := by simpa using this
          have h0 := habs sg0 (List.getElem?_mem hsg)
          intro hc
          exact h0 (hname ▸ hc)
      | none =>
        dsimp only
        exact List.mem_cons_of_mem _ (ih segs hmem habs)

/-- A live segment with no matching saved record gets its using-defaults
diagnostic from the second merge pass. -/
theorem segDefaultDiags_mem (segs : List Segment) (recs : List SegSettings)
    (sg : Segment) (hsg : sg ∈ segs)
    (habs : ∀ r ∈ recs, ¬ sg.name = r.name) :
    Diag.segUsingDefaults sg.name ∈ segDefaultDiags segs recs := by
  rw [segDefaultDiags, List.mem_filterMap]
  refine ⟨sg, hsg, ?_⟩
  have hany : (recs.any fun r => r.name = sg.name) = false := by
    simp only [List.any_eq_false]
    intro r hr
    have := habs r hr
    simp only [decide_eq_true_eq]
    exact fun hc => this hc.symm
  rw [hany]
  simp

/-- When position `i` holds the first live annotation matching the record,
the first-match update applies the record exactly there and leaves every
other position untouched. -/
theorem updateFirstAnnot_first_match (anns : List Annot) (r : AnnotSettings) (i : Nat)
    (b : Annot) (hi : anns[i]? = some b) (hm : b.name = r.name ∧ b.term = r.term)
    (hfirst : ∀ j c, j < i → anns[j]? = some c → ¬(c.name = r.name ∧ c.term = r.term)) :
    ∃ anns', updateFirstAnnot anns r = some anns' ∧
      anns'[i]? = some (b.decode_settings r) ∧ ∀ j, j ≠ i → anns'[j]? = anns[j]? := by
  induction anns generalizing i with
  | nil => simp at hi
  | cons a0 rest ih =>
    cases i with
    | zero =>
      rw [List.getElem?_cons_zero, Option.some.injEq] at hi
      subst hi
      refine ⟨a0.decode_settings r :: rest, ?_, by simp, ?_⟩
      · simp only [updateFirstAnnot, if_pos hm]
      · intro j hj
        cases j with
        | zero => exact absurd rfl hj
        | succ k => simp
    | succ i0 =>
      have hhead : ¬(a0.name = r.name ∧ a0.term = r.term) :=
        hfirst 0 a0 (Nat.succ_pos i0) (by simp)
      rw [List.getElem?_cons_succ] at hi
      obtain ⟨rest', hre, hri, hrj⟩ := ih i0 hi (fun j c hj hc =>
        hfirst (j + 1) c (Nat.succ_lt_succ hj) (by simpa using hc))
      refine ⟨a0 :: rest', ?_, by simpa using hri, ?_⟩
      · simp only [updateFirstAnnot, if_neg hhead, hre]
      · intro j hj
        cases j with
        | zero => simp
        | succ k =>
          rw [List.getElem?_cons_succ, List.getElem?_cons_succ]
          exact hrj k (fun he => hj (by rw [he]))

/-- Applying the record list to the live annotations writes the matching
record's fields into the matched position: if position `i` holds the first
live annotation matching record `r`, and `r` is the only record matching
it, the merged list holds `a.decode_settings r` at position `i`. -/
theorem mergeAnnots_apply_aux (recs : List AnnotSettings) (anns : List Annot)
    (r : AnnotSettings) (i : Nat) (a : Annot)
    (hmatch : a.name = r.name ∧ a.term = r.term)
    (hfirst : ∀ j b, j < i → anns[j]? = some b → ¬(b.name = r.name ∧ b.term = r.term))
    (huniq : ∀ r' ∈ recs, (a.name = r'.name ∧ a.term = r'.term) → r' = r)
    (hstate : (anns[i]? = some a ∧ r ∈ recs) ∨ anns[i]? = some (a.decode_settings r)) :
    (mergeAnnots anns recs).1[i]? = some (a.decode_settings r) := by
  induction recs generalizing anns with
  | nil =>
    rcases hstate with ⟨_, hr⟩ | hi2
    · cases hr
    · exact hi2
  | cons r0 rest ih =>
    have huniq2 : ∀ r' ∈ rest, (a.name = r'.name ∧ a.term = r'.term) → r' = r :=
      fun r' hr' => huniq r' (List.mem_cons_of_mem _ hr')
    simp only [mergeAnnots]
    by_cases hr0 : r0 = r
    · subst hr0
      rcases hstate with ⟨hi1, _⟩ | hi2
      · obtain ⟨anns', hup, hupi, hupj⟩ :=
          updateFirstAnnot_first_match anns r0 i a hi1 hmatch hfirst
        rw [hup]
        dsimp only
        refine ih anns' ?_ huniq2 (Or.inr hupi)
        intro j b hj hb
        rw [hupj j (Nat.ne_of_lt hj)] at hb
        exact hfirst j b hj hb
      · obtain ⟨anns', hup, hupi, hupj⟩ :=
          updateFirstAnnot_first_match anns r0 i (a.decode_settings r0) hi2
            ⟨hmatch.1, hmatch.2⟩ hfirst
        rw [hup]
        dsimp only
        refine ih anns' ?_ huniq2 (Or.inr hupi)
        intro j b hj hb
        rw [hupj j (Nat.ne_of_lt hj)] at hb
        exact hfirst j b hj hb
    · have hnota : ¬(a.name = r0.name ∧ a.term = r0.term) :=
        fun hc => hr0 (huniq r0 (List.mem_cons_self _ _) hc)
      cases hu : updateFirstAnnot anns r0 with
      | some anns1 =>
        dsimp only
        obtain ⟨hl, hp, hun⟩ := updateFirstAnnot_eq_some anns anns1 r0 hu
        have htrans : ∀ (j : Nat) (b' : Annot), anns1[j]? = some b' →
            ∃ b : Annot, anns[j]? = some b ∧ b.name = b'.name ∧ b.term = b'.term := by
          intro j b' hb'
          have h := hp j
          rw [hb'] at h
          cases hb : anns[j]? with
          | none => rw [hb] at h; simp at h
          | some b =>
            rw [hb] at h
            have hpair : pairOf b' = pairOf b := by simpa using h
            rw [pairOf, pairOf, Prod.mk.injEq] at hpair
            exact ⟨b, rfl, hpair.1.symm, hpair.2.symm⟩
        refine ih anns1 ?_ huniq2 ?_
        · intro j b' hj hb' hc
          obtain ⟨b, hb, hn, ht⟩ := htrans j b' hb'
          exact hfirst j b hj hb ⟨hn.trans hc.1, ht.trans hc.2⟩
        · rcases hstate with ⟨hi1, hrmem⟩ | hi2
          · refine Or.inl ⟨hun i a hi1 hnota, ?_⟩
            rcases List.mem_cons.1 hrmem with rfl | hmem
            · exact absurd rfl hr0
            · exact hmem
          · exact Or.inr (hun i (a.decode_settings r) hi2 hnota)
      | none =>
        dsimp only
        refine ih anns hfirst huniq2 ?_
        rcases hstate with ⟨hi1, hrmem⟩ | hi2
        · refine Or.inl ⟨hi1, ?_⟩
          rcases List.mem_cons.1 hrmem with rfl | hmem
          · exact absurd rfl hr0
          · exact hmem
        · exact Or.inr hi2

/-- Segment analogue of `updateFirstAnnot_first_match`. -/
theorem updateFirstSeg_first_match (segs : List Segment) (r : SegSettings) (i : Nat)
    (b : Segment) (hi : segs[i]? = some b) (hm : b.name = r.name)
    (hfirst : ∀ j c, j < i → segs[j]? = some c → ¬ c.name = r.name) :
    ∃ segs', updateFirstSeg segs r = some segs' ∧
      segs'[i]? = some (b.decode_settings r) ∧ ∀ j, j ≠ i → segs'[j]? = segs[j]? := by
  induction segs generalizing i with
  | nil => simp at hi
  | cons s0 rest ih =>
    cases i with
    | zero =>
      rw [List.getElem?_cons_zero, Option.some.injEq] at hi
      subst hi
      refine ⟨s0.decode_settings r :: rest, ?_, by simp, ?_⟩
      · simp only [updateFirstSeg, if_pos hm]
      · intro j hj
        cases j with
        | zero => exact absurd rfl hj
        | succ k => simp
    | succ i0 =>
      have hhead : ¬ s0.name = r.name := hfirst 0 s0 (Nat.succ_pos i0) (by simp)
      rw [List.getElem?_cons_succ] at hi
      obtain ⟨rest', hre, hri, hrj⟩ := ih i0 hi (fun j c hj hc =>
        hfirst (j + 1) c (Nat.succ_lt_succ hj) (by simpa using hc))
      refine ⟨s0 :: rest', ?_, by simpa using hri, ?_⟩
      · simp only [updateFirstSeg, if_neg hhead, hre]
      · intro j hj
        cases j with
        | zero => simp
        | succ k =>
          rw [List.getElem?_cons_succ, List.getElem?_cons_succ]
          exact hrj k (fun he => hj (by rw [he]))

/-- Segment analogue of `mergeAnnots_apply_aux`: the matching record's
translation is written into the matched segment's position. -/
theorem mergeSegs_apply_aux (recs : List SegSettings) (segs : List Segment)
    (r : SegSettings) (i : Nat) (sg : Segment)
    (hmatch : sg.name = r.name)
    (hfirst : ∀ j b, j < i → segs[j]? = some b → ¬ b.name = r.name)
    (huniq : ∀ r' ∈ recs, sg.name = r'.name → r' = r)
    (hstate : (segs[i]? = some sg ∧ r ∈ recs) ∨ segs[i]? = some (sg.decode_settings r)) :
    (mergeSegs segs recs).1[i]? = some (sg.decode_settings r) := by
  induction recs generalizing segs with
  | nil =>
    rcases hstate with ⟨_, hr⟩ | hi2
    · cases hr
    · exact hi2
  | cons r0 rest ih =>
    have huniq2 : ∀ r' ∈ rest, sg.name = r'.name → r' = r :=
      fun r' hr' => huniq r' (List.mem_cons_of_mem _ hr')
    simp only [mergeSegs]
    by_cases hr0 : r0 = r
    · subst hr0
      rcases hstate with ⟨hi1, _⟩ | hi2
      · obtain ⟨segs', hup, hupi, hupj⟩ :=
          updateFirstSeg_first_match segs r0 i sg hi1 hmatch hfirst
        rw [hup]
        dsimp only
        refine ih segs' ?_ huniq2 (Or.inr hupi)
        intro j b hj hb
        rw [hupj j (Nat.ne_of_lt hj)] at hb
        exact hfirst j b hj hb
      · obtain ⟨segs', hup, hupi, hupj⟩ :=
          updateFirstSeg_first_match segs r0 i (sg.decode_settings r0) hi2 hmatch hfirst
        rw [hup]
        dsimp only
        refine ih segs' ?_ huniq2 (Or.inr hupi)
        intro j b hj hb
        rw [hupj j (Nat.ne_of_lt hj)] at hb
        exact hfirst j b hj hb
    · have hnota : ¬ sg.name = r0.name :=
        fun hc => hr0 (huniq r0 (List.mem_cons_self _ _) hc)
      cases hu : updateFirstSeg segs r0 with
      | some segs1 =>
        dsimp only
        obtain ⟨hl, hp, hun⟩ := updateFirstSeg_eq_some segs segs1 r0 hu
        have htrans : ∀ (j : Nat) (b' : Segment), segs1[j]? = some b' →
            ∃ b : Segment, segs[j]? = some b ∧ b.name = b'.name := by
          intro j b' hb'
          have h := hp j
          rw [hb'] at h
          cases hb : segs[j]? with
          | none => rw [hb] at h; simp at h
          | some b =>
            rw [hb] at h
            have hname : b'.name = b.name := by simpa using h
            exact ⟨b, rfl, hname.symm⟩
        refine ih segs1 ?_ huniq2 ?_
        · intro j b' hj hb' hc
          obtain ⟨b, hb, hn⟩ := htrans j b' hb'
          exact hfirst j b hj hb (hn.trans hc)
        · rcases hstate with ⟨hi1, hrmem⟩ | hi2
          · refine Or.inl ⟨hun i sg hi1 hnota, ?_⟩
            rcases List.mem_cons.1 hrmem with rfl | hmem
            · exact absurd rfl hr0
            · exact hmem
          · exact Or.inr (hun i (sg.decode_settings r) hi2 hnota)
      | none =>
        dsimp only
        refine ih segs hfirst huniq2 ?_
        rcases hstate with ⟨hi1, hrmem⟩ | hi2
        · refine Or.inl ⟨hi1, ?_⟩
          rcases List.mem_cons.1 hrmem with rfl | hmem
          · exact absurd rfl hr0
          · exact hmem
        · exact Or.inr hi2

/-- C7: annotation and segment merging is two-pass and drift-tolerant.  A
saved record is applied to the live annotation with matching `(name, term)`
(for segments, matching name) when one exists: the matched position ends up
holding the live entity with the record's fields applied; a record with no
matching live entry only yields a not-found diagnostic and is ignored —
every live entry it could not match keeps its value at its position; when
the matched count is less than the live collection's size, a using-defaults
diagnostic is emitted for each live annotation (respectively segment) with
no saved record, and that entity keeps its current (default) settings; and
none of these drift cases makes `decode_settings` raise. -/
theorem c7_two_pass_drift_merge (anns : List Annot) (recs : List AnnotSettings)
    (segs : List Segment) (srecs : List SegSettings) :
    (∀ r ∈ recs, (∀ a ∈ anns, ¬(a.name = r.name ∧ a.term = r.term)) →
      Diag.annotNotFound r.name r.term ∈ (annotPhase anns recs).2) ∧
    (∀ i : Nat, ∀ a, anns[i]? = some a →
      (∀ r ∈ recs, ¬(a.name = r.name ∧ a.term = r.term)) →
      (annotPhase anns recs).1[i]? = some a) ∧
    ((mergeAnnots anns recs).2.1 < anns.length →
      ∀ a ∈ anns, (∀ r ∈ recs, ¬(a.name = r.name ∧ a.term = r.term)) →
      Diag.annotUsingDefaults a.name a.term ∈ (annotPhase anns recs).2) ∧
    (∀ r ∈ recs, ∀ i : Nat, ∀ a, anns[i]? = some a →
      (a.name = r.name ∧ a.term = r.term) →
      (∀ j b, j < i → anns[j]? = some b → ¬(b.name = r.name ∧ b.term = r.term)) →
      (∀ r' ∈ recs, (a.name = r'.name ∧ a.term = r'.term) → r' = r) →
      (annotPhase anns recs).1[i]? = some (a.decode_settings r)) ∧
    (∀ r ∈ srecs, (∀ sg ∈ segs, ¬ sg.name = r.name) →
      Diag.segNotFound r.name ∈ (segPhase segs srecs).2) ∧
    (∀ i : Nat, ∀ sg, segs[i]? = some sg →
      (∀ r ∈ srecs, ¬ sg.name = r.name) →
      (segPhase segs srecs).1[i]? = some sg) ∧
    ((mergeSegs segs srecs).2.1 < segs.length →
      ∀ sg ∈ segs, (∀ r ∈ srecs, ¬ sg.name = r.name) →
      Diag.segUsingDefaults sg.name ∈ (segPhase segs srecs).2) ∧
    (∀ r ∈ srecs, ∀ i : Nat, ∀ sg, segs[i]? = some sg →
      sg.name = r.name →
      (∀ j sg2, j < i → segs[j]? = some sg2 → ¬ sg2.name = r.name) →
      (∀ r' ∈ srecs, sg.name = r'.name → r' = r) →
      (segPhase segs srecs).1[i]? = some (sg.decode_settings r)) ∧
    (∀ (st : Stitcher) (s : Settings), structOK s = true → st.connections = [] →
      s.connections = some [] → (st.decode_settings s).2.2 = none) := by
  refine ⟨fun r hr habs => ?_, fun i a ha hall => ?_, fun hlt a ha hall => ?_,
    fun r hr i a ha hm hfirst huniq => ?_,
    fun r hr habs => ?_, fun i sg hsg hall => ?_, fun hlt sg hsg hall => ?_,
    fun r hr i sg hsg hm hfirst huniq => ?_,
    fun st s hok hconn hc => ?_⟩
  · exact List.mem_append_left _ (mergeAnnots_not_found anns recs r hr habs)
  · exact (mergeAnnots_state anns recs).2.2 i a ha hall
  · have hne : (mergeAnnots anns recs).2.1 ≠ anns.length := Nat.ne_of_lt hlt
    simp only [annotPhase]
    rw [if_pos hne]
    refine List.mem_append_right _ ?_
    obtain ⟨i, hi⟩ := List.mem_iff_getElem?.1 ha
    have hkeep := (mergeAnnots_state anns recs).2.2 i a hi hall
    exact annotDefaultDiags_mem _ recs a (List.getElem?_mem hkeep) hall
  · exact mergeAnnots_apply_aux recs anns r i a hm hfirst huniq (Or.inl ⟨ha, hr⟩)
  · exact List.mem_append_left _ (mergeSegs_not_found segs srecs r hr habs)
  · exact (mergeSegs_state segs srecs).2.2 i sg hsg hall
  · have hne : (mergeSegs segs srecs).2.1 ≠ segs.length := Nat.ne_of_lt hlt
    simp only [segPhase]
    rw [if_pos hne]
    refine List.mem_append_right _ ?_
    obtain ⟨i, hi⟩ := List.mem_iff_getElem?.1 hsg
    have hkeep := (mergeSegs_state segs srecs).2.2 i sg hi hall
    exact segDefaultDiags_mem _ srecs sg (List.getElem?_mem hkeep) hall
  · exact mergeSegs_apply_aux srecs segs r i sg hm hfirst huniq (Or.inl ⟨hsg, hr⟩)
  · unfold Stitcher.decode_settings
    simp [hok, hconn, hc, decodeConns]

/-- C7 witness: a record naming a `ghost` annotation produces only its
diagnostic; the one live annotation and segment, matched by nothing, keep
their defaults at position 0 and get using-defaults diagnostics; a record
that does match the live annotation (respectively segment) is applied to it
— the merged position 0 holds the saved `EXCLUDE` category (respectively
the saved `[9, 9, 9]` translation); and a fully-drifted decode returns no
error. -/
theorem c7_two_pass_drift_merge_witness :
    (Diag.annotNotFound "ghost" "g" ∈
      (annotPhase exFresh.annots [⟨"ghost", "g", Category.EXCLUDE⟩]).2) ∧
    ((annotPhase exFresh.annots [⟨"ghost", "g", Category.EXCLUDE⟩]).1[0]? =
      some ⟨"nerve", "t1", Category.UNCONNECTED_GENERAL, 1⟩) ∧
    (Diag.annotUsingDefaults "nerve" "t1" ∈
      (annotPhase exFresh.annots [⟨"ghost", "g", Category.EXCLUDE⟩]).2) ∧
    ((annotPhase exFresh.annots [⟨"nerve", "t1", Category.EXCLUDE⟩]).1[0]? =
      some ⟨"nerve", "t1", Category.EXCLUDE, 1⟩) ∧
    (Diag.segNotFound "ghost2" ∈
      (segPhase exFresh.segments [⟨"ghost2", [7, 8, 9]⟩]).2) ∧
    ((segPhase exFresh.segments [⟨"ghost2", [7, 8, 9]⟩]).1[0]? =
      some ⟨"alpha", [0, 0, 0]⟩) ∧
    (Diag.segUsingDefaults "alpha" ∈
      (segPhase exFresh.segments [⟨"ghost2", [7, 8, 9]⟩]).2) ∧
    ((segPhase exFresh.segments [⟨"alpha", [9, 9, 9]⟩]).1[0]? =
      some ⟨"alpha", [9, 9, 9]⟩) ∧
    ((exFresh.decode_settings
      { annotations := some [⟨"ghost", "g", Category.EXCLUDE⟩]
        segments := some [⟨"ghost2", [7, 8, 9]⟩]
        version := some 1
        connections := some [] }).2.2 = none) := by
  have h := c7_two_pass_drift_merge exFresh.annots [⟨"ghost", "g", Category.EXCLUDE⟩]
    exFresh.segments [⟨"ghost2", [7, 8, 9]⟩]
  have h2 := c7_two_pass_drift_merge exFresh.annots [⟨"nerve", "t1", Category.EXCLUDE⟩]
    exFresh.segments [⟨"alpha", [9, 9, 9]⟩]
  refine ⟨h.1 ⟨"ghost", "g", Category.EXCLUDE⟩ (by decide) (by decide),
    h.2.1 0 ⟨"nerve", "t1", Category.UNCONNECTED_GENERAL, 1⟩ (by decide) (by decide),
    h.2.2.1 (by decide) ⟨"nerve", "t1", Category.UNCONNECTED_GENERAL, 1⟩ (by decide)
      (by decide),
    h2.2.2.2.1 ⟨"nerve", "t1", Category.EXCLUDE⟩ (by decide) 0
      ⟨"nerve", "t1", Category.UNCONNECTED_GENERAL, 1⟩ (by decide) (by decide)
      (fun j b hj _ => absurd hj (Nat.not_lt_zero j)) (by decide),
    h.2.2.2.2.1 ⟨"ghost2", [7, 8, 9]⟩ (by decide) (by decide),
    h.2.2.2.2.2.1 0 ⟨"alpha", [0, 0, 0]⟩ (by decide) (by decide),
    h.2.2.2.2.2.2.1 (by decide) ⟨"alpha", [0, 0, 0]⟩ (by decide) (by decide),
    h2.2.2.2.2.2.2.2.1 ⟨"alpha", [9, 9, 9]⟩ (by decide) 0 ⟨"alpha", [0, 0, 0]⟩
      (by decide) (by decide) (fun j b hj _ => absurd hj (Nat.not_lt_zero j)) (by decide),
    h.2.2.2.2.2.2.2.2 exFresh
      { annotations := some [⟨"ghost", "g", Category.EXCLUDE⟩]
        segments := some [⟨"ghost2", [7, 8, 9]⟩]
        version := some 1
        connections := some [] } (by decide) (by decide) (by decide)⟩

/-! ## Catalog construction: C2 and C3 -/

/-- Position of the first occurrence of the identity pair `p` in a list of
annotations (the discovery rank of a pair in the discovery stream). -/
def firstIdx (p : String × String) : List Annot → Nat
  | [] => 0
  | a :: rest => if pairOf a = p then 0 else firstIdx p rest + 1

/-- The first-occurrence index of a pair present in a prefix is unchanged by
extending the list. -/
theorem firstIdx_append_of_mem (p : String × String) (pre l2 : List Annot)
    (h : p ∈ pre.map pairOf) : firstIdx p (pre ++ l2) = firstIdx p pre := by
  induction pre with
  | nil => simp at h
  | cons a rest ih =>
    simp only [List.cons_append, firstIdx, List.append_eq]
    by_cases hp : pairOf a = p
    · simp [hp]
    · rw [if_neg hp, if_neg hp, ih]
      rcases List.mem_map.1 h with ⟨x, hx, hpx⟩
      rcases List.mem_cons.1 hx with rfl | hx2
      · exact absurd hpx hp
      · exact List.mem_map.2 ⟨x, hx2, hpx⟩

/-- The first-occurrence index of a present pair is below the length. -/
theorem firstIdx_lt_length (p : String × String) (l : List Annot)
    (h : p ∈ l.map pairOf) : firstIdx p l < l.length := by
  induction l with
  | nil => simp at h
  | cons a rest ih =>
    simp only [firstIdx, List.length_cons]
    by_cases hp : pairOf a = p
    · simp [hp]
    · rw [if_neg hp]
      have : p ∈ rest.map pairOf := by
        rcases List.mem_map.1 h with ⟨x, hx, hpx⟩
        rcases List.mem_cons.1 hx with rfl | hx2
        · exact absurd hpx hp
        · exact List.mem_map.2 ⟨x, hx2, hpx⟩
      exact Nat.succ_lt_succ (ih this)

/-- A pair absent from the prefix and carried by the appended annotation gets
first-occurrence index equal to the prefix length. -/
theorem firstIdx_append_self (pre : List Annot) (a : Annot)
    (h : pairOf a ∉ pre.map pairOf) : firstIdx (pairOf a) (pre ++ [a]) = pre.length := by
  induction pre with
  | nil => simp [firstIdx]
  | cons b rest ih =>
    simp only [List.cons_append, firstIdx, List.length_cons, List.append_eq]
    have hb : ¬ pairOf b = pairOf a := fun he => h (List.mem_map.2 ⟨b, List.mem_cons_self _ _, he⟩)
    rw [if_neg hb, ih (fun hm => h (by
      rcases List.mem_map.1 hm with ⟨x, hx, hpx⟩
      exact List.mem_map.2 ⟨x, List.mem_cons_of_mem _ hx, hpx⟩))]

/-- `insertAt` is a permutation of consing. -/
theorem insertAt_perm {α : Type} (n : Nat) (x : α) (l : List α) :
    List.Perm (insertAt n x l) (x :: l) := by
  induction l generalizing n with
  | nil => simp [insertAt]
  | cons y ys ih =>
    cases n with
    | zero => simp [insertAt]
    | succ m =>
      simp only [insertAt]
      exact (List.Perm.cons y (ih m)).trans (List.Perm.swap x y ys)

/-- `insertAt` at an in-range index splits as take, the element, drop. -/
theorem insertAt_eq_take_drop {α : Type} (n : Nat) (x : α) (l : List α)
    (h : n ≤ l.length) : insertAt n x l = l.take n ++ x :: l.drop n := by
  induction l generalizing n with
  | nil => simp [insertAt]
  | cons y ys ih =>
    cases n with
    | zero => simp [insertAt]
    | succ m =>
      simp only [insertAt, List.take_succ_cons, List.drop_succ_cons, List.cons_append,
        List.cons.injEq, true_and]
      exact ih m (Nat.le_of_succ_le_succ h)

/-- The catalog scan returns `none` exactly when the pair exists already. -/
theorem annotScan_eq_none (name term : String) (cat : List Annot) :
    annotScan name term cat = none ↔ ∃ a ∈ cat, a.name = name ∧ a.term = term := by
  induction cat with
  | nil => simp [annotScan]
  | cons a rest ih =>
    by_cases hm : a.name = name ∧ a.term = term
    · constructor
      · intro _
        exact ⟨a, List.mem_cons_self _ _, hm⟩
      · intro _
        simp [annotScan, hm]
    · constructor
      · intro hn
        simp only [annotScan] at hn
        rw [if_neg hm] at hn
        cases hs : annotScan name term rest with
        | none =>
          obtain ⟨a', ha', hm'⟩ := ih.1 hs
          exact ⟨a', List.mem_cons_of_mem _ ha', hm'⟩
        | some i =>
          rw [hs] at hn
          simp at hn
      · rintro ⟨a', ha', hm'⟩
        rcases List.mem_cons.1 ha' with rfl | ha2
        · exact absurd hm' hm
        · have hs := ih.2 ⟨a', ha2, hm'⟩
          simp [annotScan, hm, hs]

/-- The catalog scan on insertion: the returned index counts the entries
whose name is strictly below the new name, and no entry matches the pair. -/
theorem annotScan_eq_some (name term : String) (cat : List Annot) (i : Nat)
    (h : annotScan name term cat = some i) :
    i = cat.countP (fun a => a.name < name) ∧
    ∀ a ∈ cat, ¬(a.name = name ∧ a.term = term) := by
  induction cat generalizing i with
  | nil =>
    simp only [annotScan, Option.some.injEq] at h
    subst h
    simp
  | cons a rest ih =>
    simp only [annotScan] at h
    by_cases hm : a.name = name ∧ a.term = term
    · rw [if_pos hm] at h
      simp at h
    · rw [if_neg hm] at h
      cases hs : annotScan name term rest with
      | none =>
        rw [hs] at h
        simp at h
      | some j =>
        rw [hs] at h
        simp only [Option.some.injEq] at h
        obtain ⟨hj, hall⟩ := ih j hs
        constructor
        · by_cases hlt : a.name < name
          · rw [if_pos hlt] at h
            subst h
            rw [List.countP_cons, hj, decide_eq_true hlt]
            simp
          · rw [if_neg hlt] at h
            subst h
            rw [List.countP_cons, hj, decide_eq_false hlt]
            simp
        · intro x hx
          rcases List.mem_cons.1 hx with rfl | hx2
          · exact hm
          · exact hall x hx2

/-- In a name-sorted catalog, the first `countP (names < nm)` entries are
exactly those with name strictly below `nm`, and the rest have name at least
`nm`. -/
theorem sorted_countP_split (cat : List Annot) (nm : String)
    (hs : cat.Pairwise (fun x y => x.name ≤ y.name)) :
    (∀ y ∈ cat.take (cat.countP (fun a => a.name < nm)), y.name < nm) ∧
    (∀ y ∈ cat.drop (cat.countP (fun a => a.name < nm)), nm ≤ y.name) := by
  induction cat with
  | nil => simp
  | cons b cs ih =>
    rw [List.pairwise_cons] at hs
    obtain ⟨hb, hcs⟩ := hs
    by_cases hlt : b.name < nm
    · have hcount : List.countP (fun a => decide (a.name < nm)) (b :: cs) =
        List.countP (fun a => decide (a.name < nm)) cs + 1 := by
        rw [List.countP_cons]
        simp [hlt]
      rw [hcount, List.take_succ_cons, List.drop_succ_cons]
      obtain ⟨iht, ihd⟩ := ih hcs
      refine ⟨fun y hy => ?_, ihd⟩
      rcases List.mem_cons.1 hy with rfl | hy2
      · exact hlt
      · exact iht y hy2
    · have hcount : List.countP (fun a => decide (a.name < nm)) (b :: cs) = 0 := by
        rw [List.countP_eq_zero]
        intro x hx
        simp only [decide_eq_true_eq]
        rcases List.mem_cons.1 hx with rfl | hx2
        · exact hlt
        · exact not_lt.2 (le_trans (not_lt.1 hlt) (hb x hx2))
      rw [hcount, List.take_zero, List.drop_zero]
      refine ⟨fun y hy => absurd hy (List.not_mem_nil y), fun y hy => ?_⟩
      rcases List.mem_cons.1 hy with rfl | hy2
      · exact not_lt.1 hlt
      · exact le_trans (not_lt.1 hlt) (hb y hy2)

/-- One catalog-construction step preserves the construction invariant: the
catalog's pairs are exactly the pairs seen so far, without duplicates, the
catalog is non-decreasing by name, and entries of equal name are ordered by
strictly decreasing discovery rank. -/
theorem addAnnot_step (pre cat : List Annot) (a : Annot)
    (h1 : ∀ p, p ∈ cat.map pairOf ↔ p ∈ pre.map pairOf)
    (h2 : (cat.map pairOf).Nodup)
    (h3 : cat.Pairwise (fun x y => x.name ≤ y.name))
    (h4 : cat.Pairwise (fun x y => x.name = y.name →
      firstIdx (pairOf y) pre < firstIdx (pairOf x) pre)) :
    (∀ p, p ∈ (addAnnot cat a).map pairOf ↔ p ∈ (pre ++ [a]).map pairOf) ∧
    ((addAnnot cat a).map pairOf).Nodup ∧
    (addAnnot cat a).Pairwise (fun x y => x.name ≤ y.name) ∧
    (addAnnot cat a).Pairwise (fun x y => x.name = y.name →
      firstIdx (pairOf y) (pre ++ [a]) < firstIdx (pairOf x) (pre ++ [a])) := by
  have hmem_pre : ∀ x ∈ cat, pairOf x ∈ pre.map pairOf :=
    fun x hx => (h1 (pairOf x)).1 (List.mem_map.2 ⟨x, hx, rfl⟩)
  have hstable : ∀ x ∈ cat, firstIdx (pairOf x) (pre ++ [a]) = firstIdx (pairOf x) pre :=
    fun x hx => firstIdx_append_of_mem (pairOf x) pre [a] (hmem_pre x hx)
  cases hscan : annotScan a.name a.term cat with
  | none =>
    have hcat : addAnnot cat a = cat := by
      unfold addAnnot
      rw [hscan]
    have hdup : pairOf a ∈ cat.map pairOf := by
      obtain ⟨a', ha', hm'⟩ := (annotScan_eq_none a.name a.term cat).1 hscan
      exact List.mem_map.2 ⟨a', ha', by rw [pairOf, pairOf, hm'.1, hm'.2]⟩
    rw [hcat]
    refine ⟨fun p => ?_, h2, h3, ?_⟩
    · rw [List.map_append, List.mem_append]
      constructor
      · intro hp
        exact Or.inl ((h1 p).1 hp)
      · intro hp
        rcases hp with hp | hp
        · exact (h1 p).2 hp
        · simp only [List.map_cons, List.map_nil, List.mem_singleton] at hp
          exact hp ▸ hdup
    · refine h4.imp_of_mem (fun hx hy hr heq => ?_)
      rw [hstable _ hx, hstable _ hy]
      exact hr heq
  | some i =>
    obtain ⟨hi, habs⟩ := annotScan_eq_some a.name a.term cat i hscan
    subst hi
    have hfreshcat : pairOf a ∉ cat.map pairOf := by
      intro hm
      obtain ⟨a', ha', hpa⟩ := List.mem_map.1 hm
      rw [pairOf, pairOf, Prod.mk.injEq] at hpa
      exact habs a' ha' ⟨hpa.1, hpa.2⟩
    have hfreshpre : pairOf a ∉ pre.map pairOf := fun hm => hfreshcat ((h1 _).2 hm)
    have hilen : cat.countP (fun x => x.name < a.name) ≤ cat.length :=
      List.countP_le_length _
    have hrep : addAnnot cat a =
        cat.take (cat.countP (fun x => x.name < a.name)) ++
          a :: cat.drop (cat.countP (fun x => x.name < a.name)) := by
      unfold addAnnot
      rw [hscan]
      exact insertAt_eq_take_drop _ a cat hilen
    have hperm : List.Perm (addAnnot cat a) (a :: cat) := by
      unfold addAnnot
      rw [hscan]
      exact insertAt_perm _ a cat
    have hpermmap := hperm.map pairOf
    obtain ⟨htake, hdrop⟩ := sorted_countP_split cat a.name h3
    have hcross : ∀ x ∈ cat.take (cat.countP (fun x => x.name < a.name)),
        ∀ z ∈ cat.drop (cat.countP (fun x => x.name < a.name)),
        x.name ≤ z.name ∧ (x.name = z.name →
          firstIdx (pairOf z) pre < firstIdx (pairOf x) pre) := by
      have h34 := List.Pairwise.and h3 h4
      rw [← List.take_append_drop (cat.countP (fun x => x.name < a.name)) cat,
        List.pairwise_append] at h34
      exact fun x hx z hz => h34.2.2 x hx z hz
    have htkmem : ∀ x ∈ cat.take (cat.countP (fun x => x.name < a.name)), x ∈ cat :=
      fun x hx => (List.take_sublist _ _).subset hx
    have hdpmem : ∀ x ∈ cat.drop (cat.countP (fun x => x.name < a.name)), x ∈ cat :=
      fun x hx => (List.drop_sublist _ _).subset hx
    refine ⟨fun p => ?_, ?_, ?_, ?_⟩
    · rw [hpermmap.mem_iff, List.map_append, List.mem_append]
      simp only [List.map_cons, List.mem_cons, List.map_nil, List.mem_singleton]
      rw [h1 p]
      tauto
    · rw [hpermmap.nodup_iff, List.map_cons, List.nodup_cons]
      exact ⟨hfreshcat, h2⟩
    · rw [hrep]
      refine List.pairwise_append.2 ⟨h3.sublist (List.take_sublist _ _), ?_, ?_⟩
      · rw [List.pairwise_cons]
        exact ⟨fun y hy => hdrop y hy, h3.sublist (List.drop_sublist _ _)⟩
      · intro x hx z hz
        rcases List.mem_cons.1 hz with rfl | hz2
        · exact le_of_lt (htake x hx)
        · exact (hcross x hx z hz2).1
    · rw [hrep]
      refine List.pairwise_append.2 ⟨?_, ?_, ?_⟩
      · refine (h4.sublist (List.take_sublist _ _)).imp_of_mem (fun hx hy hr heq => ?_)
        rw [hstable _ (htkmem _ hx), hstable _ (htkmem _ hy)]
        exact hr heq
      · rw [List.pairwise_cons]
        constructor
        · intro y hy _
          rw [hstable _ (hdpmem _ hy), firstIdx_append_self pre a hfreshpre]
          exact firstIdx_lt_length (pairOf y) pre (hmem_pre _ (hdpmem _ hy))
        · refine (h4.sublist (List.drop_sublist _ _)).imp_of_mem (fun hx hy hr heq => ?_)
          rw [hstable _ (hdpmem _ hx), hstable _ (hdpmem _ hy)]
          exact hr heq
      · intro x hx z hz
        rcases List.mem_cons.1 hz with rfl | hz2
        · exact fun heq => absurd heq (ne_of_lt (htake x hx))
        · intro heq
          rw [hstable _ (htkmem _ hx), hstable _ (hdpmem _ hz2)]
          exact (hcross x hx z hz2).2 heq

/-- The catalog invariant carried over a whole discovery suffix. -/
theorem catalog_fold_inv (todo : List Annot) (pre cat : List Annot)
    (h1 : ∀ p, p ∈ cat.map pairOf ↔ p ∈ pre.map pairOf)
    (h2 : (cat.map pairOf).Nodup)
    (h3 : cat.Pairwise (fun x y => x.name ≤ y.name))
    (h4 : cat.Pairwise (fun x y => x.name = y.name →
      firstIdx (pairOf y) pre < firstIdx (pairOf x) pre)) :
    (∀ p, p ∈ (todo.foldl addAnnot cat).map pairOf ↔ p ∈ (pre ++ todo).map pairOf) ∧
    ((todo.foldl addAnnot cat).map pairOf).Nodup ∧
    (todo.foldl addAnnot cat).Pairwise (fun x y => x.name ≤ y.name) ∧
    (todo.foldl addAnnot cat).Pairwise (fun x y => x.name = y.name →
      firstIdx (pairOf y) (pre ++ todo) < firstIdx (pairOf x) (pre ++ todo)) := by
  induction todo generalizing pre cat with
  | nil =>
    simp only [List.foldl_nil, List.append_nil]
    exact ⟨h1, h2, h3, h4⟩
  | cons a rest ih =>
    obtain ⟨g1, g2, g3, g4⟩ := addAnnot_step pre cat a h1 h2 h3 h4
    have hres := ih (pre ++ [a]) (addAnnot cat a) g1 g2 g3 g4
    rw [List.append_assoc, List.singleton_append] at hres
    simp only [List.foldl_cons]
    exact hres

/-- The nested construction loops equal one fold over the discovery stream. -/
theorem buildCatalog_foldl (inputs : List SegmentInput) (cat : List Annot) :
    inputs.foldl (fun c seg => seg.annots.foldl addAnnot c) cat =
      (discoveryStream inputs).foldl addAnnot cat := by
  induction inputs generalizing cat with
  | nil => rfl
  | cons i rest ih =>
    simp only [List.foldl_cons, discoveryStream, List.flatMap_cons, List.foldl_append]
    exact ih _

/-- The constructed catalog is the discovery-stream fold from the empty
catalog. -/
theorem init_annots_eq (inputs : List SegmentInput) :
    (Stitcher.init inputs).annots = (discoveryStream inputs).foldl addAnnot [] := by
  rw [Stitcher.init]
  exact buildCatalog_foldl inputs []

/-- C2: after construction the catalog holds exactly one entry per distinct
`(name, term)` pair discovered across all segments: its pairs are free of
duplicates, a pair is in the catalog exactly when some segment discovered
it, and the catalog's length is the number of distinct discovered pairs. -/
theorem c2_catalog_dedup (inputs : List SegmentInput) :
    ((Stitcher.init inputs).annots.map pairOf).Nodup ∧
    (∀ p, p ∈ (Stitcher.init inputs).annots.map pairOf ↔
      p ∈ (discoveryStream inputs).map pairOf) ∧
    (Stitcher.init inputs).annots.length =
      ((discoveryStream inputs).map pairOf).dedup.length := by
  obtain ⟨g1, g2, g3, g4⟩ := catalog_fold_inv (discoveryStream inputs) [] []
    (by simp) (by simp) (by simp) (by simp)
  rw [init_annots_eq]
  simp only [List.nil_append] at g1
  refine ⟨g2, g1, ?_⟩
  have hperm := (List.perm_ext_iff_of_nodup g2
    (List.nodup_dedup ((discoveryStream inputs).map pairOf))).2
    (fun p => (g1 p).trans List.mem_dedup.symm)
  calc ((discoveryStream inputs).foldl addAnnot []).length
      = (((discoveryStream inputs).foldl addAnnot []).map pairOf).length := by
        rw [List.length_map]
    _ = ((discoveryStream inputs).map pairOf).dedup.length := hperm.length_eq

/-- The one-segment input whose two raw annotations share a name. -/
def c3Input : List SegmentInput :=
  [⟨"s", [⟨"b", "t1", Category.UNCONNECTED_GENERAL, 1⟩,
    ⟨"b", "t2", Category.UNCONNECTED_GENERAL, 1⟩]⟩]

/-- C3 counterexample: the claim says catalog entries with equal names
appear in first-seen order.  With two same-name annotations discovered in
the order `t1`, `t2`, the catalog comes out as `[(b, t2), (b, t1)]`: the
annotation discovered first (`t1`, discovery rank 0, below `t2`'s rank 1)
appears *after* the one discovered later, because the scan's insertion index
counts only strictly smaller names and so places a new equal-name entry in
front of the existing one. -/
theorem c3_counterexample :
    (Stitcher.init c3Input).annots.map pairOf = [("b", "t2"), ("b", "t1")] ∧
    firstIdx ("b", "t1") (discoveryStream c3Input) = 0 ∧
    firstIdx ("b", "t2") (discoveryStream c3Input) = 1 := by
  refine ⟨?_, ?_, ?_⟩ <;> with_unfolding_all rfl

/-- C3 amended: after construction the catalog is non-decreasing by name,
and entries with equal names appear in *reverse* discovery order: among two
catalog entries with the same name, the one appearing earlier in the catalog
has the strictly larger first-occurrence position in the discovery stream
(the later-discovered precedes the earlier-discovered). -/
theorem c3_catalog_order (inputs : List SegmentInput) :
    (Stitcher.init inputs).annots.Pairwise (fun x y => x.name ≤ y.name) ∧
    (Stitcher.init inputs).annots.Pairwise (fun x y => x.name = y.name →
      firstIdx (pairOf y) (discoveryStream inputs) <
        firstIdx (pairOf x) (discoveryStream inputs)) := by
  obtain ⟨g1, g2, g3, g4⟩ := catalog_fold_inv (discoveryStream inputs) [] []
    (by simp) (by simp) (by simp) (by simp)
  rw [init_annots_eq]
  simp only [List.nil_append] at g4
  exact ⟨g3, g4⟩

/-! ## C1 — settings round-trip -/

/-- Merging skips over a live annotation head that matches no record. -/
theorem mergeAnnots_cons_fresh (x : Annot) (as : List Annot) (recs : List AnnotSettings)
    (hx : ∀ r ∈ recs, ¬(x.name = r.name ∧ x.term = r.term)) :
    mergeAnnots (x :: as) recs =
      ((x :: (mergeAnnots as recs).1), (mergeAnnots as recs).2.1,
        (mergeAnnots as recs).2.2) := by
  induction recs generalizing as with
  | nil => rfl
  | cons r rest ih =>
    have hxr := hx r (List.mem_cons_self _ _)
    have hxrest : ∀ r' ∈ rest, ¬(x.name = r'.name ∧ x.term = r'.term) :=
      fun r' hr' => hx r' (List.mem_cons_of_mem _ hr')
    simp only [mergeAnnots, updateFirstAnnot, if_neg hxr]
    cases hu : updateFirstAnnot as r with
    | some as1 =>
      dsimp only
      rw [ih as1 hxrest]
    | none =>
      dsimp only
      rw [ih as hxrest]

/-- Merging a record list that is positionally aligned with the live
annotations (same pairs in the same order, pairwise distinct) applies each
record to its own position: every record matches, and no diagnostics are
emitted. -/
theorem mergeAnnots_exact (anns : List Annot) (recs : List AnnotSettings)
    (hmap : anns.map pairOf = recs.map (fun r => (r.name, r.term)))
    (hnodup : (anns.map pairOf).Nodup) :
    mergeAnnots anns recs =
      (List.zipWith Annot.decode_settings anns recs, anns.length, []) := by
  induction anns generalizing recs with
  | nil =>
    cases recs with
    | nil => rfl
    | cons r rs => simp at hmap
  | cons a as ih =>
    cases recs with
    | nil => simp at hmap
    | cons r rs =>
      simp only [List.map_cons, List.cons.injEq] at hmap
      obtain ⟨hhead, htail⟩ := hmap
      rw [pairOf, Prod.mk.injEq] at hhead
      rw [List.map_cons, List.nodup_cons] at hnodup
      have hfresh : ∀ r' ∈ rs,
          ¬((a.decode_settings r).name = r'.name ∧ (a.decode_settings r).term = r'.term) := by
        intro r' hr' hc
        apply hnodup.1
        rw [htail]
        refine List.mem_map.2 ⟨r', hr', ?_⟩
        rw [pairOf]
        have hn : (a.decode_settings r).name = a.name := rfl
        have ht : (a.decode_settings r).term = a.term := rfl
        rw [hn, ht] at hc
        rw [← hc.1, ← hc.2]
      simp only [mergeAnnots, updateFirstAnnot, if_pos hhead]
      rw [mergeAnnots_cons_fresh _ _ _ hfresh, ih rs htail hnodup.2]
      simp [List.zipWith]

/-- Merging skips over a live segment head that matches no record. -/
theorem mergeSegs_cons_fresh (x : Segment) (ss : List Segment) (recs : List SegSettings)
    (hx : ∀ r ∈ recs, ¬ x.name = r.name) :
    mergeSegs (x :: ss) recs =
      ((x :: (mergeSegs ss recs).1), (mergeSegs ss recs).2.1, (mergeSegs ss recs).2.2) := by
  induction recs generalizing ss with
  | nil => rfl
  | cons r rest ih =>
    have hxr := hx r (List.mem_cons_self _ _)
    have hxrest : ∀ r' ∈ rest, ¬ x.name = r'.name :=
      fun r' hr' => hx r' (List.mem_cons_of_mem _ hr')
    simp only [mergeSegs, updateFirstSeg, if_neg hxr]
    cases hu : updateFirstSeg ss r with
    | some ss1 =>
      dsimp only
      rw [ih ss1 hxrest]
    | none =>
      dsimp only
      rw [ih ss hxrest]

/-- Merging a record list positionally aligned with the live segments (same
names in the same order, pairwise distinct) applies each record to its own
position with no diagnostics. -/
theorem mergeSegs_exact (segs : List Segment) (recs : List SegSettings)
    (hmap : segs.map Segment.name = recs.map SegSettings.name)
    (hnodup : (segs.map Segment.name).Nodup) :
    mergeSegs segs recs =
      (List.zipWith Segment.decode_settings segs recs, segs.length, []) := by
  induction segs generalizing recs with
  | nil =>
    cases recs with
    | nil => rfl
    | cons r rs => simp at hmap
  | cons sg ss ih =>
    cases recs with
    | nil => simp at hmap
    | cons r rs =>
      simp only [List.map_cons, List.cons.injEq] at hmap
      obtain ⟨hhead, htail⟩ := hmap
      rw [List.map_cons, List.nodup_cons] at hnodup
      have hfresh : ∀ r' ∈ rs, ¬ (sg.decode_settings r).name = r'.name := by
        intro r' hr' hc
        apply hnodup.1
        rw [htail]
        have hn : (sg.decode_settings r).name = sg.name := rfl
        rw [hn] at hc
        exact List.mem_map.2 ⟨r', hr', hc.symm⟩
      simp only [mergeSegs, updateFirstSeg, if_pos hhead]
      rw [mergeSegs_cons_fresh _ _ _ hfresh, ih rs htail hnodup.2]
      simp [List.zipWith]

/-- Categories after the aligned merge come from the records. -/
theorem zipWith_annot_decode_category (as : List Annot) (rs : List AnnotSettings)
    (h : as.length = rs.length) :
    (List.zipWith Annot.decode_settings as rs).map Annot.category =
      rs.map AnnotSettings.category := by
  induction as generalizing rs with
  | nil =>
    cases rs with
    | nil => rfl
    | cons r rs' => simp at h
  | cons a as' ih =>
    cases rs with
    | nil => simp at h
    | cons r rs' =>
      simp only [List.zipWith_cons_cons, List.map_cons, List.cons.injEq]
      exact ⟨rfl, ih rs' (by simpa using h)⟩

/-- Translations after the aligned merge come from the records. -/
theorem zipWith_seg_decode_translation (ss : List Segment) (rs : List SegSettings)
    (h : ss.length = rs.length) :
    (List.zipWith Segment.decode_settings ss rs).map Segment.translation =
      rs.map SegSettings.translation := by
  induction ss generalizing rs with
  | nil =>
    cases rs with
    | nil => rfl
    | cons r rs' => simp at h
  | cons sg ss' ih =>
    cases rs with
    | nil => simp at h
    | cons r rs' =>
      simp only [List.zipWith_cons_cons, List.map_cons, List.cons.injEq]
      exact ⟨rfl, ih rs' (by simpa using h)⟩

/-- The segment merge never changes segment names. -/
theorem zipWith_seg_decode_name (ss : List Segment) (rs : List SegSettings)
    (h : ss.length = rs.length) :
    (List.zipWith Segment.decode_settings ss rs).map Segment.name =
      ss.map Segment.name := by
  induction ss generalizing rs with
  | nil => rfl
  | cons sg ss' ih =>
    cases rs with
    | nil => simp at h
    | cons r rs' =>
      simp only [List.zipWith_cons_cons, List.map_cons, List.cons.injEq]
      exact ⟨rfl, ih rs' (by simpa using h)⟩

/-- With pairwise-distinct segment names, searching for the name of the
segment at position `i` finds exactly position `i`. -/
theorem findIdx_name_nodup (segs : List Segment) (i : Nat) (h : i < segs.length)
    (hnodup : (segs.map Segment.name).Nodup) :
    segs.findIdx? (fun sg => sg.name = ((segs[i]?).map Segment.name).getD "") = some i := by
  induction segs generalizing i with
  | nil => simp at h
  | cons s ss ih =>
    rw [List.map_cons, List.nodup_cons] at hnodup
    cases i with
    | zero =>
      rw [List.findIdx?_cons]
      simp
    | succ j =>
      have hj : j < ss.length := by simpa using h
      have hname : ((((s :: ss)[j + 1]?).map Segment.name).getD "") =
          (((ss[j]?).map Segment.name).getD "") := by
        rw [List.getElem?_cons_succ]
      rw [List.findIdx?_cons, hname]
      have hmem : ((ss[j]?).map Segment.name).getD "" ∈ ss.map Segment.name := by
        rw [List.getElem?_eq_getElem hj]
        exact List.mem_map.2 ⟨ss[j], List.getElem_mem hj, rfl⟩
      have hne : ¬ s.name = ((ss[j]?).map Segment.name).getD "" := by
        intro he
        exact hnodup.1 (he ▸ hmem)
      rw [if_neg (by simpa using hne), List.findIdx?_succ, ih j hj hnodup.2]
      rfl

/-- Resolving the encoded names of valid segment indices against a segment
list with pairwise-distinct names returns exactly those indices, with no
diagnostics. -/
theorem resolveSegNames_exact (segs : List Segment) (idxs : List Nat)
    (hval : ∀ i ∈ idxs, i < segs.length)
    (hnodup : (segs.map Segment.name).Nodup) :
    resolveSegNames segs (idxs.map (fun i => ((segs[i]?).map Segment.name).getD "")) =
      (idxs, []) := by
  induction idxs with
  | nil => rfl
  | cons i is ih =>
    have hi := hval i (List.mem_cons_self _ _)
    have his : ∀ j ∈ is, j < segs.length := fun j hj => hval j (List.mem_cons_of_mem _ hj)
    simp only [List.map_cons, resolveSegNames]
    rw [ih his, findIdx_name_nodup segs i hi hnodup]

/-- Decoding the encoded connections of a source stitcher into a state with
the same segment names (pairwise distinct) and pairwise non-overlapping
connections appends exactly the source's connections, with no diagnostics
and no error. -/
theorem decodeConns_exact (stB : Stitcher) (src_segs : List Segment)
    (cs : List Connection)
    (hnames : stB.segments.map Segment.name = src_segs.map Segment.name)
    (hnodup : (stB.segments.map Segment.name).Nodup)
    (hval : ∀ c ∈ cs, ∀ i ∈ c.segments, i < src_segs.length)
    (hlen2 : ∀ c ∈ cs, c.segments.length = 2)
    (huniq : List.Pairwise (fun c d => ¬ ∀ i ∈ d.segments, i ∈ c.segments)
      (stB.connections ++ cs)) :
    decodeConns stB (cs.map (Connection.encode_settings src_segs)) =
      ({ stB with connections := stB.connections ++ cs }, [], none) := by
  induction cs generalizing stB with
  | nil =>
    rw [List.map_nil, List.append_nil]
    rfl
  | cons c cs' ih =>
    have hlen := hlen2 c (List.mem_cons_self _ _)
    have hvalc := hval c (List.mem_cons_self _ _)
    have hvalB : ∀ i ∈ c.segments, i < stB.segments.length := by
      intro i hi
      have := hvalc i hi
      have hl : stB.segments.length = src_segs.length := by
        rw [← List.length_map stB.segments Segment.name, hnames, List.length_map]
      omega
    have hencnames : c.segments.map (fun i => ((src_segs[i]?).map Segment.name).getD "") =
        c.segments.map (fun i => ((stB.segments[i]?).map Segment.name).getD "") := by
      refine List.map_congr_left (fun i hi => ?_)
      rw [← List.getElem?_map, ← List.getElem?_map, hnames]
    have hres : resolveSegNames stB.segments
        (c.segments.map (fun i => ((src_segs[i]?).map Segment.name).getD "")) =
        (c.segments, []) := by
      rw [hencnames]
      exact resolveSegNames_exact stB.segments c.segments hvalB hnodup
    rw [List.pairwise_append] at huniq
    have hfresh : ∀ e ∈ stB.connections, ∃ i ∈ c.segments, i ∉ e.segments := by
      intro e he
      have := huniq.2.2 e he c (List.mem_cons_self _ _)
      push_neg at this
      exact this
    have hcreate := create_connection_success stB c.segments hlen hfresh
    conv_lhs => rw [List.map_cons]
    conv_lhs => unfold decodeConns
    dsimp only
    rw [Connection.encode_settings]
    dsimp only
    rw [hres]
    dsimp only
    rw [if_pos (by rw [hlen])]
    rw [hcreate]
    dsimp only
    rw [List.dropLast_concat]
    have hdecoded : Connection.decode_settings ⟨c.segments, []⟩
        ⟨c.segments.map (fun i => ((src_segs[i]?).map Segment.name).getD ""), c.extra⟩ =
          c := rfl
    rw [hdecoded]
    have huniq' : List.Pairwise (fun c d => ¬ ∀ i ∈ d.segments, i ∈ c.segments)
        ((stB.connections ++ [c]) ++ cs') := by
      rw [List.append_assoc, List.singleton_append]
      rw [List.pairwise_append]
      refine ⟨huniq.1, huniq.2.1, huniq.2.2⟩
    have hres2 := ih { stB with connections := stB.connections ++ [c] }
      (by simpa using hnames) (by simpa using hnodup)
      (fun d hd => hval d (List.mem_cons_of_mem _ hd))
      (fun d hd => hlen2 d (List.mem_cons_of_mem _ hd))
      (by simpa using huniq')
    rw [hres2]
    simp [List.append_assoc]

/-- The constructed catalog's pairs are duplicate-free. -/
theorem init_pairs_nodup (inputs : List SegmentInput) :
    ((Stitcher.init inputs).annots.map pairOf).Nodup := by
  obtain ⟨g1, g2, g3, g4⟩ := catalog_fold_inv (discoveryStream inputs) [] []
    (by simp) (by simp) (by simp) (by simp)
  rw [init_annots_eq]
  exact g2

/-- Encoding a stitcher with annotations, segments and a non-zero version
passes the structural precondition. -/
theorem structOK_encode (st : Stitcher) (h1 : st.annots ≠ []) (h2 : st.segments ≠ [])
    (h3 : st.version ≠ 0) : structOK st.encode_settings = true := by
  rw [structOK, Stitcher.encode_settings]
  dsimp only
  cases ha : st.annots with
  | nil => exact absurd ha h1
  | cons a as =>
    cases hs : st.segments with
    | nil => exact absurd hs h2
    | cons sg ss =>
      cases hv : st.version with
      | zero => exact absurd hv h3
      | succ n => rfl

/-- The one-segment, zero-annotation input for the C1 counterexample. -/
def c1Input : List SegmentInput := [⟨"solo", []⟩]

/-- A stitcher over `c1Input` whose only segment's translation was edited. -/
def c1Edited : Stitcher :=
  { Stitcher.init c1Input with segments := [⟨"solo", [5, 0, 0]⟩] }

/-- C1 counterexample: the claim quantifies over every set of input files,
but with an input yielding no annotations at all, `encode_settings` emits an
empty `annotations` list, the decode's structural precondition rejects it,
and the edited translation `[5, 0, 0]` of the source stitcher is *not*
reproduced on the freshly constructed target (which keeps `[0, 0, 0]`). -/
theorem c1_counterexample :
    ((Stitcher.init c1Input).decode_settings c1Edited.encode_settings).2.2 =
      some DecodeErr.assertError ∧
    ((Stitcher.init c1Input).decode_settings c1Edited.encode_settings).1.segments.map
      Segment.translation = [[0, 0, 0]] ∧
    c1Edited.segments.map Segment.translation = [[5, 0, 0]] := by
  refine ⟨?_, ?_, ?_⟩ <;> with_unfolding_all rfl

/-- C1 amended: the round-trip holds for every source stitcher built over
the same input files (then arbitrarily edited through the API) provided the
inputs yield at least one annotation and at least one segment (so that the
encoded lists are non-empty and pass the structural precondition), segment
names are pairwise distinct (names are the merge key), and the source's
connections are the 2-reference, index-valid, pairwise non-overlapping ones
`create_connection` produces.  Then decoding the source's encoded settings
into the freshly constructed stitcher reproduces every annotation's
category, every segment's translation, and the exact connection list, with
no error raised. -/
theorem c1_round_trip (inputs : List SegmentInput) (st1 : Stitcher)
    (hanames : st1.annots.map pairOf = (Stitcher.init inputs).annots.map pairOf)
    (hsnames : st1.segments.map Segment.name =
      (Stitcher.init inputs).segments.map Segment.name)
    (hver : st1.version = 1)
    (hnodup : (st1.segments.map Segment.name).Nodup)
    (hanne : st1.annots ≠ [])
    (hsegne : st1.segments ≠ [])
    (hclen : ∀ c ∈ st1.connections, c.segments.length = 2)
    (hcval : ∀ c ∈ st1.connections, ∀ i ∈ c.segments, i < st1.segments.length)
    (hcuniq : List.Pairwise (fun c d => ¬ ∀ i ∈ d.segments, i ∈ c.segments)
      st1.connections) :
    ((Stitcher.init inputs).decode_settings st1.encode_settings).2.2 = none ∧
    ((Stitcher.init inputs).decode_settings st1.encode_settings).1.annots.map
      Annot.category = st1.annots.map Annot.category ∧
    ((Stitcher.init inputs).decode_settings st1.encode_settings).1.segments.map
      Segment.translation = st1.segments.map Segment.translation ∧
    ((Stitcher.init inputs).decode_settings st1.encode_settings).1.connections =
      st1.connections := by
  have hlenA : (Stitcher.init inputs).annots.length = st1.annots.length := by
    rw [← List.length_map st1.annots pairOf, hanames, List.length_map]
  have hlenS : (Stitcher.init inputs).segments.length = st1.segments.length := by
    rw [← List.length_map st1.segments Segment.name, hsnames, List.length_map]
  have hok : structOK st1.encode_settings = true :=
    structOK_encode st1 hanne hsegne (by rw [hver]; exact one_ne_zero)
  have hmapA : (Stitcher.init inputs).annots.map pairOf =
      (st1.annots.map Annot.encode_settings).map (fun r => (r.name, r.term)) := by
    rw [List.map_map, ← hanames]
    rfl
  have hA : annotPhase (Stitcher.init inputs).annots (st1.annots.map Annot.encode_settings) =
      (List.zipWith Annot.decode_settings (Stitcher.init inputs).annots
        (st1.annots.map Annot.encode_settings), []) := by
    rw [annotPhase, mergeAnnots_exact _ _ hmapA (init_pairs_nodup inputs)]
    simp
  have hmapS : (Stitcher.init inputs).segments.map Segment.name =
      (st1.segments.map Segment.encode_settings).map SegSettings.name := by
    rw [List.map_map, ← hsnames]
    rfl
  have hnodup2 : ((Stitcher.init inputs).segments.map Segment.name).Nodup := by
    rw [← hsnames]
    exact hnodup
  have hB : segPhase (Stitcher.init inputs).segments
      (st1.segments.map Segment.encode_settings) =
      (List.zipWith Segment.decode_settings (Stitcher.init inputs).segments
        (st1.segments.map Segment.encode_settings), []) := by
    rw [segPhase, mergeSegs_exact _ _ hmapS hnodup2]
    simp
  have hBnames : (List.zipWith Segment.decode_settings (Stitcher.init inputs).segments
      (st1.segments.map Segment.encode_settings)).map Segment.name =
      st1.segments.map Segment.name := by
    rw [zipWith_seg_decode_name _ _ (by rw [hlenS, List.length_map]), hsnames]
  have hBnodup : ((List.zipWith Segment.decode_settings (Stitcher.init inputs).segments
      (st1.segments.map Segment.encode_settings)).map Segment.name).Nodup := by
    rw [hBnames]
    exact hnodup
  have hC := decodeConns_exact
    { Stitcher.init inputs with
      annots := List.zipWith Annot.decode_settings (Stitcher.init inputs).annots
        (st1.annots.map Annot.encode_settings)
      segments := List.zipWith Segment.decode_settings (Stitcher.init inputs).segments
        (st1.segments.map Segment.encode_settings) }
    st1.segments st1.connections hBnames hBnodup hcval hclen
    (by
      show List.Pairwise _ (([] : List Connection) ++ st1.connections)
      rw [List.nil_append]
      exact hcuniq)
  have hfull : (Stitcher.init inputs).decode_settings st1.encode_settings =
      ({ Stitcher.init inputs with
        annots := List.zipWith Annot.decode_settings (Stitcher.init inputs).annots
          (st1.annots.map Annot.encode_settings)
        segments := List.zipWith Segment.decode_settings (Stitcher.init inputs).segments
          (st1.segments.map Segment.encode_settings)
        connections := st1.connections }, [], none) := by
    unfold Stitcher.decode_settings
    rw [if_neg (by rw [hok]; simp)]
    dsimp only
    rw [show (st1.encode_settings).annotations = some (st1.annots.map Annot.encode_settings)
      from rfl]
    rw [show (st1.encode_settings).segments = some (st1.segments.map Segment.encode_settings)
      from rfl]
    rw [show (st1.encode_settings).connections =
      some (st1.connections.map (Connection.encode_settings st1.segments)) from rfl]
    rw [Option.getD_some, Option.getD_some, hA, hB]
    dsimp only
    rw [if_neg (fun hne => hne rfl)]
    rw [hC]
    simp
    rfl
  rw [hfull]
  refine ⟨rfl, ?_, ?_, rfl⟩
  · dsimp only
    rw [zipWith_annot_decode_category _ _ (by rw [hlenA, List.length_map]), List.map_map]
    rfl
  · dsimp only
    rw [zipWith_seg_decode_translation _ _ (by rw [hlenS, List.length_map]), List.map_map]
    rfl

/-- A source stitcher over `exInput` with an edited category, an edited
translation and one created connection carrying saved fields. -/
def c1Source : Stitcher :=
  { Stitcher.init exInput with
    annots := [⟨"nerve", "t1", Category.EXCLUDE, 1⟩]
    segments := [⟨"alpha", [0, 0, 0]⟩, ⟨"beta", [5, 1, 2]⟩]
    connections := [⟨[0, 1], ["mark"]⟩] }

/-- C1 witness: the amended round-trip at the concrete two-segment input —
the edited category, translation and connection all survive
`decode_settings(encode_settings())` into a fresh stitcher. -/
theorem c1_round_trip_witness :
    ((Stitcher.init exInput).decode_settings c1Source.encode_settings).2.2 = none ∧
    ((Stitcher.init exInput).decode_settings c1Source.encode_settings).1.annots.map
      Annot.category = c1Source.annots.map Annot.category ∧
    ((Stitcher.init exInput).decode_settings c1Source.encode_settings).1.segments.map
      Segment.translation = c1Source.segments.map Segment.translation ∧
    ((Stitcher.init exInput).decode_settings c1Source.encode_settings).1.connections =
      c1Source.connections := by
  exact c1_round_trip exInput c1Source
    (by with_unfolding_all rfl)
    (by with_unfolding_all rfl)
    rfl
    (by decide)
    (by decide)
    (by decide)
    (by decide)
    (by decide)
    (by decide)
